import Mathlib

/-!
Verification development for the tower-stacking core of this repository
(`script.py`, canonical variant): the SAT oriented-box collision detector,
the support-surface heightmap, and the placement planner.

The Python float arithmetic is idealized as exact rational arithmetic (`ℚ`).
Trigonometric evaluation (`Euler(...).to_matrix()`, `np.cos`, `np.sin`) is
precomposed: rotations enter the model as the evaluated rotation matrix plus
the cosine and sine of the yaw angle.  Shapely polygon intersection is
realized by exact Sutherland-Hodgman clipping of the convex footprint
quadrilateral by the cell rectangle together with the shoelace area.
NumPy array indexing keeps its source semantics: an index in `[-n, 0)` wraps
silently to the opposite end, any other out-of-range index raises.
-/

namespace Tower


/-- A 3D vector over `ℚ` (source floats idealized as exact rationals). -/
structure Vec3 where
  x : ℚ
  y : ℚ
  z : ℚ
deriving DecidableEq

instance : Inhabited Vec3 := ⟨⟨0, 0, 0⟩⟩

def Vec3.add (a b : Vec3) : Vec3 := ⟨a.x + b.x, a.y + b.y, a.z + b.z⟩

def Vec3.sub (a b : Vec3) : Vec3 := ⟨a.x - b.x, a.y - b.y, a.z - b.z⟩

instance : Add Vec3 := ⟨Vec3.add⟩

instance : Sub Vec3 := ⟨Vec3.sub⟩

/-- Dot product. -/
def Vec3.dot (a b : Vec3) : ℚ := a.x * b.x + a.y * b.y + a.z * b.z

/-- Cross product. -/
def Vec3.cross (a b : Vec3) : Vec3 :=
  ⟨a.y * b.z - a.z * b.y, a.z * b.x - a.x * b.z, a.x * b.y - a.y * b.x⟩

/-- Squared Euclidean length. -/
def Vec3.normSq (a : Vec3) : ℚ := a.dot a

/-- Scalar multiple. -/
def Vec3.smul (c : ℚ) (a : Vec3) : Vec3 := ⟨c * a.x, c * a.y, c * a.z⟩

/-- A 3x3 matrix by rows; stands for the precomputed `Euler(rot,'XYZ')`
rotation matrix of mathutils. -/
structure Mat3 where
  r1 : Vec3
  r2 : Vec3
  r3 : Vec3
deriving DecidableEq

/-- Matrix-vector product (`rotation_matrix @ vertex`). -/
def Mat3.mulVec (M : Mat3) (v : Vec3) : Vec3 := ⟨M.r1.dot v, M.r2.dot v, M.r3.dot v⟩

/-- Python `int()` applied to a real value: truncation toward zero.
(`Rat.floor` is used instead of `Int.floor` so that the definition reduces
inside the kernel; the two agree on `ℚ`.) -/
def pyInt (q : ℚ) : ℤ := if 0 ≤ q then q.floor else -(Rat.floor (-q))

/-- Python `round` on an exact rational value: nearest integer, ties to even. -/
def pyRound (q : ℚ) : ℤ :=
  let f := q.floor
  if q - (f : ℚ) < 1 / 2 then f
  else if 1 / 2 < q - (f : ℚ) then f + 1
  else if f % 2 = 0 then f else f + 1

/-- Fuel-based Newton iteration for the integer square root; identical to
`Nat.sqrt.iter` (which is defined by well-founded recursion and therefore does
not reduce inside the kernel). -/
def natSqrtIter : ℕ → ℕ → ℕ → ℕ
  | 0, _, guess => guess
  | fuel + 1, n, guess =>
    let next := (guess + n / guess) / 2
    if next < guess then natSqrtIter fuel n next else guess

/-- Kernel-reducible integer square root; equal to `Nat.sqrt`. -/
def natSqrt (n : ℕ) : ℕ := if n ≤ 1 then n else natSqrtIter n n (n / 2)

/-- Nearest integer with ties to even of `(rn / rd) * √N`, for naturals with
`0 < rd`.  `natSqrt (rn^2 * N / rd^2)` is the floor of the value; the
half-way comparison squares both sides exactly. -/
def roundMulSqrtPos (rn rd N : ℕ) : ℕ :=
  let fl := natSqrt (rn ^ 2 * N / rd ^ 2)
  let lhs := 4 * rn ^ 2 * N
  let rhs := (2 * fl + 1) ^ 2 * rd ^ 2
  if lhs < rhs then fl
  else if rhs < lhs then fl + 1
  else if fl % 2 = 0 then fl else fl + 1

/-- Nearest integer with ties to even of `r * √N`. -/
def roundMulSqrt (r : ℚ) (N : ℕ) : ℤ :=
  if 0 ≤ r then (roundMulSqrtPos r.num.toNat r.den N : ℤ)
  else -(roundMulSqrtPos (-r).num.toNat (-r).den N : ℤ)

/-- Whether a nonnegative rational is the square of a rational. -/
def isSquareRat (s : ℚ) : Bool :=
  natSqrt s.num.toNat * natSqrt s.num.toNat == s.num.toNat &&
    natSqrt s.den * natSqrt s.den == s.den

/-- Exact square root of a rational known to be a square of a rational. -/
def ratSqrt (s : ℚ) : ℚ := (natSqrt s.num.toNat : ℚ) / (natSqrt s.den : ℚ)

/-- Nearest integer with ties to even of `1000 * num / √s` for `s > 0`,
computed exactly.  This realizes Python `round(c, 3)` (scaled by 1000) on a
component `c = num / √s` of a normalized vector whose unnormalized component
is `num` and whose squared length is `s`.  With `s = sn / sd` in lowest terms,
`1000 num / √s = (1000 num sd / (sn sd)) * √(sn sd)`. -/
def roundKeyComp (num s : ℚ) : ℤ :=
  if isSquareRat s then pyRound (1000 * num / ratSqrt s)
  else
    let sn := s.num.toNat
    let sd := s.den
    let N := sn * sd
    roundMulSqrt (1000 * num * (sd : ℚ) / (N : ℚ)) N

/-- Deduplication key of an axis: `(round(n.x,3), round(n.y,3), round(n.z,3))`
of the normalized axis `n`, in integer thousandths.  The zero vector (a
degenerate normal, which mathutils normalizes to zero) keys to `(0,0,0)`. -/
def axisKey (v : Vec3) : ℤ × ℤ × ℤ :=
  let s := v.normSq
  if s = 0 then (0, 0, 0)
  else (roundKeyComp v.x s, roundKeyComp v.y s, roundKeyComp v.z s)

/-- `CollisionDetector.get_block_vertices`: the 8 corners of an oriented box.
The rotation enters as the evaluated Euler matrix. -/
def getBlockVertices (position size : Vec3) (R : Mat3) : List Vec3 :=
  let hl := size.x / 2
  let hw := size.y / 2
  let hh := size.z / 2
  [Vec3.mk hl hw hh, Vec3.mk hl hw (-hh), Vec3.mk hl (-hw) hh, Vec3.mk hl (-hw) (-hh),
   Vec3.mk (-hl) hw hh, Vec3.mk (-hl) hw (-hh), Vec3.mk (-hl) (-hw) hh,
   Vec3.mk (-hl) (-hw) (-hh)].map (fun v => position + R.mulVec v)

/-- The six face index quadruples of `CollisionDetector.get_block_faces`. -/
def faceIndexSets : List (List ℕ) :=
  [[0, 1, 3, 2], [4, 5, 7, 6], [0, 4, 6, 2], [1, 5, 7, 3], [0, 1, 5, 4], [2, 3, 7, 6]]

/-- `CollisionDetector.get_block_faces`. -/
def getBlockFaces (vertices : List Vec3) : List (List Vec3) :=
  faceIndexSets.map (fun f => f.map (fun i => vertices.getD i default))

/-- `CollisionDetector.get_face_normal`.  The source normalizes the cross
product; the model keeps the unnormalized cross: the interval overlap test is
invariant under positive scaling, and `axisKey` performs the normalization
exactly where it matters (the deduplication identity). -/
def getFaceNormal (face : List Vec3) : Vec3 :=
  (face.getD 1 default - face.getD 0 default).cross (face.getD 2 default - face.getD 0 default)

/-- `CollisionDetector.get_face_edges`: vectors between cyclically consecutive
face vertices. -/
def getFaceEdges (face : List Vec3) : List Vec3 :=
  (List.range face.length).map
    (fun i => face.getD ((i + 1) % face.length) default - face.getD i default)

/-- Squared version of the `cross.length > 0.001` degeneracy filter. -/
def crossEps : ℚ := 1 / 1000000

/-- The edge cross-product axes of `get_all_separating_axes`, in source
iteration order, kept when the squared length exceeds `0.001 ^ 2`. -/
def crossAxes (faces1 faces2 : List (List Vec3)) : List Vec3 :=
  faces1.flatMap fun f1 =>
    faces2.flatMap fun f2 =>
      (getFaceEdges f1).flatMap fun e1 =>
        ((getFaceEdges f2).filter fun e2 => decide (crossEps < (e1.cross e2).normSq)).map
          fun e2 => e1.cross e2

/-- First-occurrence deduplication of axes by `axisKey` (the Python `seen`
set of rounded normalized components). -/
def dedupAxes : List Vec3 → List (ℤ × ℤ × ℤ) → List Vec3
  | [], _ => []
  | v :: rest, seen =>
    if axisKey v ∈ seen then dedupAxes rest seen
    else v :: dedupAxes rest (axisKey v :: seen)

/-- `CollisionDetector.get_all_separating_axes`: face normals of both boxes,
then the filtered edge cross products, deduplicated by rounded key. -/
def getAllSeparatingAxes (v1 v2 : List Vec3) : List Vec3 :=
  let faces1 := getBlockFaces v1
  let faces2 := getBlockFaces v2
  dedupAxes (faces1.map getFaceNormal ++ faces2.map getFaceNormal ++ crossAxes faces1 faces2) []

/-- Minimum of a rational list, folded from its first element (the source
folds from `+inf`; identical on the nonempty lists that occur). -/
def listMinQ (l : List ℚ) : ℚ := l.foldl min (l.headD 0)

/-- Maximum of a rational list, folded from its first element. -/
def listMaxQ (l : List ℚ) : ℚ := l.foldl max (l.headD 0)

/-- `CollisionDetector.project_vertices`: extreme dot products along an axis. -/
def projectVertices (vertices : List Vec3) (axis : Vec3) : ℚ × ℚ :=
  (listMinQ (vertices.map (fun v => v.dot axis)),
   listMaxQ (vertices.map (fun v => v.dot axis)))

/-- One-axis separation: `max1 <= min2 or max2 <= min1` (`script.py` treats
touching intervals as separated). -/
def sepOn (v1 v2 : List Vec3) (axis : Vec3) : Bool :=
  let p1 := projectVertices v1 axis
  let p2 := projectVertices v2 axis
  decide (p1.2 ≤ p2.1 ∨ p2.2 ≤ p1.1)

/-- `CollisionDetector.separating_axis_theorem`: `true` means the boxes
collide (no checked axis separates them). -/
def separatingAxisTheorem (v1 v2 : List Vec3) : Bool :=
  !(getAllSeparatingAxes v1 v2).any (sepOn v1 v2)

/-- The identity rotation matrix (`Euler((0,0,0))`). -/
def idMat : Mat3 := ⟨⟨1, 0, 0⟩, ⟨0, 1, 0⟩, ⟨0, 0, 1⟩⟩

/-- An exact rational rotation matrix (a Cayley transform; orthogonal with
determinant 1) whose off-diagonal entries are slightly below `5e-4`, so that
all its axis keys round to the keys of the coordinate axes. -/
def asymR : Mat3 :=
  ⟨⟨16777215 / 16777219, -8190 / 16777219, 8194 / 16777219⟩,
   ⟨8194 / 16777219, 16777215 / 16777219, -8190 / 16777219⟩,
   ⟨-8190 / 16777219, 8194 / 16777219, 16777215 / 16777219⟩⟩

/-- The x offset of the second box in the SAT asymmetry instance: the two
boxes are separated along the x axis with margin `1e-8`, smaller than the
second-order tilt of `asymR`. -/
def asymP : ℚ :=
  1 / 2 + (16777215 / 16777219 + 8190 / 16777219 + 8194 / 16777219) / 2 + 1 / 100000000

/-- Vertex set of the axis-aligned unit cube at the origin. -/
def asymVertsA : List Vec3 := getBlockVertices ⟨0, 0, 0⟩ ⟨1, 1, 1⟩ idMat

/-- Vertex set of the `asymR`-rotated unit cube at `(asymP, 0, 0)`. -/
def asymVertsB : List Vec3 := getBlockVertices ⟨asymP, 0, 0⟩ ⟨1, 1, 1⟩ asymR

/-- A 2D point. -/
abbrev Point := ℚ × ℚ

/-- A grid cell index pair. -/
abbrev Cell := ℤ × ℤ

/-- The two error kinds the placement core can raise: `ValueError` from
`get_block_position`, `IndexError` from a numpy fancy-index fault. -/
inductive PyErr where
  | valueError
  | indexError
deriving DecidableEq

/-- `Heightmap`: the grid geometry together with the two per-cell arrays
(`height`, initially zero, and `occupancy`, initially one), modeled as total
functions on index pairs. -/
structure Heightmap where
  width : ℚ
  depth : ℚ
  resolution : ℚ
  gridX : ℤ
  gridY : ℤ
  height : ℤ → ℤ → ℚ
  occupancy : ℤ → ℤ → ℚ

/-- `Heightmap.__init__(width, depth, resolution)`. -/
def Heightmap.init (width depth resolution : ℚ) : Heightmap :=
  ⟨width, depth, resolution, pyInt (width / resolution), pyInt (depth / resolution),
   fun _ _ => 0, fun _ _ => 1⟩

/-- `Heightmap.world_to_grid`. -/
def Heightmap.worldToGrid (hm : Heightmap) (x y : ℚ) : ℤ × ℤ :=
  (pyInt ((x + hm.width / 2) / hm.resolution), pyInt ((y + hm.depth / 2) / hm.resolution))

/-- `Heightmap.grid_to_world`. -/
def Heightmap.gridToWorld (hm : Heightmap) (gx gy : ℤ) : ℚ × ℚ :=
  ((gx : ℚ) * hm.resolution - hm.width / 2, (gy : ℚ) * hm.resolution - hm.depth / 2)

/-- `Heightmap.get_polygon`: the four corners of the rotated footprint
rectangle.  The yaw angle `rotation[2]` enters as its cosine `c` and sine `s`
(`np.cos`/`np.sin` precomposed). -/
def getPolygon (position size : Vec3) (c s : ℚ) : List Point :=
  let l := size.x
  let w := size.y
  [(position.x + l / 2 * c - w / 2 * s, position.y + l / 2 * s + w / 2 * c),
   (position.x + l / 2 * c + w / 2 * s, position.y + l / 2 * s - w / 2 * c),
   (position.x - l / 2 * c + w / 2 * s, position.y - l / 2 * s - w / 2 * c),
   (position.x - l / 2 * c - w / 2 * s, position.y - l / 2 * s + w / 2 * c)]

/-- `polygon.bounds`: `(minx, miny, maxx, maxy)` over the corner list. -/
def polygonBounds (poly : List Point) : ℚ × ℚ × ℚ × ℚ :=
  (listMinQ (poly.map Prod.fst), listMinQ (poly.map Prod.snd),
   listMaxQ (poly.map Prod.fst), listMaxQ (poly.map Prod.snd))

/-- An affine functional `a*x + b*y + c`; its half plane is where it is `≥ 0`. -/
structure HalfPlane where
  a : ℚ
  b : ℚ
  c : ℚ

/-- Value of the affine functional at a point. -/
def HalfPlane.eval (hp : HalfPlane) (p : Point) : ℚ := hp.a * p.1 + hp.b * p.2 + hp.c

/-- Intersection of the segment `cur`-`nxt` with the boundary of a half
plane, from the signed endpoint distances `dc` and `dn`. -/
def segInter (cur nxt : Point) (dc dn : ℚ) : Point :=
  let t := dc / (dc - dn)
  (cur.1 + t * (nxt.1 - cur.1), cur.2 + t * (nxt.2 - cur.2))

/-- One Sutherland-Hodgman stage: clip a (cyclic) polygon by a half plane. -/
def clipStage (pts : List Point) (hp : HalfPlane) : List Point :=
  (List.range pts.length).flatMap fun i =>
    let cur := pts.getD i (0, 0)
    let nxt := pts.getD ((i + 1) % pts.length) (0, 0)
    let dc := hp.eval cur
    let dn := hp.eval nxt
    if 0 ≤ dn then (if dc < 0 then [segInter cur nxt dc dn] else []) ++ [nxt]
    else if 0 ≤ dc then [segInter cur nxt dc dn] else []

/-- `cell.intersection(polygon)` realized exactly: clip the convex footprint
quadrilateral by the four half planes of the cell rectangle.  The result is
empty exactly when the two are disjoint; a touching contact leaves a
degenerate (zero-area) vertex chain, matching shapely's non-empty
`Point`/`LineString` intersections. -/
def cellClip (poly : List Point) (xmin ymin xmax ymax : ℚ) : List Point :=
  clipStage (clipStage (clipStage (clipStage poly ⟨1, 0, -xmin⟩) ⟨-1, 0, xmax⟩)
    ⟨0, 1, -ymin⟩) ⟨0, -1, ymax⟩

/-- Twice the signed area of a polygon: the cyclic shoelace sum. -/
def shoelace (pts : List Point) : ℚ :=
  (List.zipWith (fun p q => p.1 * q.2 - q.1 * p.2) pts (pts.rotate 1)).sum

/-- `shapely` polygon area: absolute geometric area. -/
def polyArea (pts : List Point) : ℚ := |shoelace pts| / 2

/-- The clipped intersection of grid cell `(x, y)` with the footprint. -/
def Heightmap.cellInter (hm : Heightmap) (poly : List Point) (x y : ℤ) : List Point :=
  let lo := hm.gridToWorld x y
  let hi := hm.gridToWorld (x + 1) (y + 1)
  cellClip poly lo.1 lo.2 hi.1 hi.2

/-- `inter_area / grid_area` of `update_height`: the support fraction of one
grid cell under the footprint. -/
def Heightmap.cellSupp (hm : Heightmap) (poly : List Point) (x y : ℤ) : ℚ :=
  polyArea (hm.cellInter poly x y) / hm.resolution ^ 2

/-- The per-cell write condition of `update_height`:
`not intersection.is_empty and area_ratio >= min_ratio`. -/
def Heightmap.updCond (hm : Heightmap) (poly : List Point) (minSupp : ℚ) (x y : ℤ) : Bool :=
  !(hm.cellInter poly x y).isEmpty && decide (minSupp ≤ hm.cellSupp poly x y)

/-- The inclusive integer range `[lo, hi]` as a list. -/
def intRange (lo hi : ℤ) : List ℤ :=
  (List.range (hi + 1 - lo).toNat).map (fun k : ℕ => lo + (k : ℤ))

/-- The bounding cell range scanned by `update_height`, in source order
(`x` outer, `y` inner, both inclusive). -/
def Heightmap.updRange (hm : Heightmap) (poly : List Point) : List Cell :=
  match polygonBounds poly with
  | (b0, b1, b2, b3) =>
    let lo := hm.worldToGrid b0 b1
    let hi := hm.worldToGrid b2 b3
    (intRange lo.1 hi.1).flatMap fun x => (intRange lo.2 hi.2).map fun y => (x, y)

/-- numpy index wrapping: an index in `[-n, 0)` addresses the opposite end. -/
def wrapIdx (i n : ℤ) : ℤ := if i < 0 then i + n else i

/-- numpy index admissibility: `-n <= i < n`. -/
def npOk (i n : ℤ) : Bool := decide (-n ≤ i ∧ i < n)

/-- One committed write `height[x,y] += dz; occupancy[x,y] = r`, at the
numpy-wrapped indices. -/
def Heightmap.write (hm : Heightmap) (x y : ℤ) (dz r : ℚ) : Heightmap :=
  let wx := wrapIdx x hm.gridX
  let wy := wrapIdx y hm.gridY
  { hm with
    height := fun i j => if i = wx ∧ j = wy then hm.height i j + dz else hm.height i j,
    occupancy := fun i j => if i = wx ∧ j = wy then r else hm.occupancy i j }

/-- The body of the `update_height` scan at one grid cell: a previous fault is
carried through; otherwise a cell passing the support condition receives
`height += size[2]` and `occupancy = area_ratio` when its indices are
admissible, and faults with `IndexError` when they are not. -/
def Heightmap.updStep (hm : Heightmap) (size : Vec3) (poly : List Point) (minSupp : ℚ)
    (st : Heightmap × Option PyErr) (cell : Cell) : Heightmap × Option PyErr :=
  match st with
  | (h, some e) => (h, some e)
  | (h, none) =>
    if hm.updCond poly minSupp cell.1 cell.2 then
      if npOk cell.1 hm.gridX && npOk cell.2 hm.gridY then
        (h.write cell.1 cell.2 size.z (hm.cellSupp poly cell.1 cell.2), none)
      else (h, some .indexError)
    else (h, none)

/-- `Heightmap.update_height(position, size, rotation, min_ratio)`: scan the
bounding cell range; every cell passing the support condition receives
`height += size[2]` and `occupancy = area_ratio`.  A numpy index fault aborts
the scan, leaving the writes already made (the source raises `IndexError`
there); the fault is returned alongside the final state. -/
def Heightmap.updateHeightRun (hm : Heightmap) (position size : Vec3) (c s : ℚ)
    (minSupp : ℚ) : Heightmap × Option PyErr :=
  let poly := getPolygon position size c s
  (hm.updRange poly).foldl (hm.updStep size poly minSupp) (hm, none)

/-- All grid cells in scan order (`x` outer, `y` inner). -/
def Heightmap.allCells (hm : Heightmap) : List Cell :=
  (intRange 0 (hm.gridX - 1)).flatMap fun gx => (intRange 0 (hm.gridY - 1)).map fun gy => (gx, gy)

/-- Ground-mode candidates: five positions `(uniform(-1,1), uniform(-1,1), 0)`;
`rng` supplies the successive uniform draws. -/
def gvpGround (rng : ℕ → ℚ) : List Vec3 :=
  (List.range 5).map fun k => ⟨rng (2 * k), rng (2 * k + 1), 0⟩

/-- Stacked-mode scan of `get_valid_positions`: one candidate per cell with
nonzero stored height, at the cell's world position jittered by
`uniform(-resolution, resolution)`, with `z` the stored height; `ctr` indexes
the random draws consumed so far.  The commented-out occupancy-band test of
the source is (faithfully) not performed. -/
def gvpStacked (hm : Heightmap) (rng : ℕ → ℚ) : List Cell → ℕ → List Vec3
  | [], _ => []
  | (gx, gy) :: rest, ctr =>
    if hm.height gx gy ≠ 0 then
      ⟨(hm.gridToWorld gx gy).1 + rng ctr, (hm.gridToWorld gx gy).2 + rng (ctr + 1),
       hm.height gx gy⟩ :: gvpStacked hm rng rest (ctr + 2)
    else gvpStacked hm rng rest ctr

/-- Specification-side form of the stacked scan: one candidate is emitted for
every cell of the given list (used with the nonzero-height cells), consuming
two random draws each. -/
def stackedPerCell (hm : Heightmap) (rng : ℕ → ℚ) : List Cell → ℕ → List Vec3
  | [], _ => []
  | (gx, gy) :: rest, ctr =>
    ⟨(hm.gridToWorld gx gy).1 + rng ctr, (hm.gridToWorld gx gy).2 + rng (ctr + 1),
     hm.height gx gy⟩ :: stackedPerCell hm rng rest (ctr + 2)

/-- `Heightmap.get_valid_positions(size, flag)`; `size` is accepted and
unused, as in the source. -/
def Heightmap.getValidPositions (hm : Heightmap) (size : Vec3) (flag : Bool)
    (rng : ℕ → ℚ) : List Vec3 :=
  if flag then gvpGround rng else gvpStacked hm rng hm.allCells 0

/-- A rotation as the core consumes it: the evaluated Euler `'XYZ'` matrix
(collision detector) plus the cosine and sine of the yaw `rotation[2]`
(footprint polygon). -/
structure Rot where
  m : Mat3
  c : ℚ
  s : ℚ

/-- The zero rotation. -/
def rotId : Rot := ⟨idMat, 1, 0⟩

/-- A committed block record: the fields of `block_data` the core consumes. -/
structure Block where
  position : Vec3
  size : Vec3
  rot : Rot

/-- The 8-vertex set of a committed block. -/
def blockVerts (b : Block) : List Vec3 := getBlockVertices b.position b.size b.rot.m

/-- `CollisionDetector.check_block_collision`: `true` when the candidate
collides with some existing block (short-circuiting, in list order). -/
def checkBlockCollision (existing : List Block) (newPos newSize : Vec3) (R : Mat3) : Bool :=
  let nv := getBlockVertices newPos newSize R
  existing.any fun b => separatingAxisTheorem nv (blockVerts b)

/-- The `while valid_positions` loop of `get_block_position`: draw a random
candidate (`random.choice`, modeled by the index stream `rngC` taken mod the
current length), remove it, test for collision; on the first collision-free
candidate run `update_height` (default `min_ratio = 0.4`) and return it.  The
fuel argument, instantiated with the candidate count, makes the recursion
structural; an `update_height` fault propagates with the partial heightmap. -/
def placeLoop (existing : List Block) (size : Vec3) (rot : Rot) (rngC : ℕ → ℕ)
    (hm : Heightmap) : ℕ → List Vec3 → ℕ → Except (PyErr × Heightmap) (Vec3 × Heightmap)
  | _, [], _ => .error (.valueError, hm)
  | 0, _ :: _, _ => .error (.valueError, hm)
  | fuel + 1, cands@(_ :: _), k =>
    let i := rngC k % cands.length
    let p := cands.getD i default
    if checkBlockCollision existing p size rot.m then
      placeLoop existing size rot rngC hm fuel (cands.erase p) (k + 1)
    else
      match hm.updateHeightRun p size rot.c rot.s (2 / 5) with
      | (hm', none) => .ok (p, hm')
      | (hm', some e) => .error (e, hm')

/-- `get_block_position(existing_blocks, heightmap, collisiondetector, size,
flag, new_rot)`: fetch candidates, fail with `ValueError` when none, then run
the selection loop. -/
def getBlockPosition (existing : List Block) (hm : Heightmap) (size : Vec3)
    (flag : Bool) (rot : Rot) (rngU : ℕ → ℚ) (rngC : ℕ → ℕ) :
    Except (PyErr × Heightmap) (Vec3 × Heightmap) :=
  let cands := hm.getValidPositions size flag rngU
  placeLoop existing size rot rngC hm cands.length cands 0

/-- The returned position of a placement call, when it succeeded. -/
def posOf : Except (PyErr × Heightmap) (Vec3 × Heightmap) → Option Vec3
  | .ok (p, _) => some p
  | .error _ => none

/-- The error kind of a placement call, when it failed. -/
def errOf : Except (PyErr × Heightmap) (Vec3 × Heightmap) → Option PyErr
  | .ok _ => none
  | .error (e, _) => some e

/-- The heightmap state after a placement call (final on success, at the
raise point on failure). -/
def hmOf : Except (PyErr × Heightmap) (Vec3 × Heightmap) → Heightmap
  | .ok (_, h) => h
  | .error (_, h) => h

/-- Scenes reachable by the planner: starting from the empty list, each block
is appended with the position returned by a successful `get_block_position`
call — the loop `generate_blocks_data` drives. -/
inductive Committed : List Block → Prop where
  | nil : Committed []
  | place (bs : List Block) (hm : Heightmap) (size : Vec3) (flag : Bool) (rot : Rot)
      (rngU : ℕ → ℚ) (rngC : ℕ → ℕ) (pos : Vec3) :
      Committed bs →
      posOf (getBlockPosition bs hm size flag rot rngU rngC) = some pos →
      Committed (bs ++ [⟨pos, size, rot⟩])

/-- `Euler((0,0,90°))`. -/
def rotZ90 : Mat3 := ⟨⟨0, -1, 0⟩, ⟨1, 0, 0⟩, ⟨0, 0, 1⟩⟩

/-- `Euler((0,0,180°))`. -/
def rotZ180 : Mat3 := ⟨⟨-1, 0, 0⟩, ⟨0, -1, 0⟩, ⟨0, 0, 1⟩⟩

/-- `Euler((0,0,270°))`. -/
def rotZ270 : Mat3 := ⟨⟨0, 1, 0⟩, ⟨-1, 0, 0⟩, ⟨0, 0, 1⟩⟩

/-- The four yaw rotation matrices that `generate_blocks_data` draws from
(`rot_range` = 0°, 90°, 180°, 270°). -/
def IsYaw90 (R : Mat3) : Prop := R = idMat ∨ R = rotZ90 ∨ R = rotZ180 ∨ R = rotZ270

/-- The eight local corner offsets of a box, in source order. -/
def boxLocal (s : Vec3) : ℕ → Vec3
  | 0 => ⟨s.x / 2, s.y / 2, s.z / 2⟩
  | 1 => ⟨s.x / 2, s.y / 2, -(s.z / 2)⟩
  | 2 => ⟨s.x / 2, -(s.y / 2), s.z / 2⟩
  | 3 => ⟨s.x / 2, -(s.y / 2), -(s.z / 2)⟩
  | 4 => ⟨-(s.x / 2), s.y / 2, s.z / 2⟩
  | 5 => ⟨-(s.x / 2), s.y / 2, -(s.z / 2)⟩
  | 6 => ⟨-(s.x / 2), -(s.y / 2), s.z / 2⟩
  | _ => ⟨-(s.x / 2), -(s.y / 2), -(s.z / 2)⟩

/-- World position of box corner `i`. -/
def boxVert (p s : Vec3) (R : Mat3) (i : ℕ) : Vec3 := p + R.mulVec (boxLocal s i)

/-- A vector along a coordinate axis (or zero): at most one nonzero
component.  For boxes rotated by quarter turns about z, every face normal and
every admissible edge cross product is of this shape. -/
def AxisAligned (v : Vec3) : Prop :=
  (v.y = 0 ∧ v.z = 0) ∨ (v.x = 0 ∧ v.z = 0) ∨ (v.x = 0 ∧ v.y = 0)

/-- The canonical heightmap of `main()`: `Heightmap(20, 20, 0.5)`. -/
def hm20 : Heightmap := Heightmap.init 20 20 (1 / 2)

/-- A reachable heightmap state with one supported cell at the positive-x
edge of the grid (cell `(39,19)`, world square `[9.5,10] × [-0.5,0]`). -/
def edgeHm : Heightmap :=
  { hm20 with height := fun i j => if i = 39 ∧ j = 19 then 1 else 0 }

/-- Jitter stream for the border placement: `+0.45` in x, `+0.25` in y. -/
def edgeRngU : ℕ → ℚ := fun n => if n = 0 then 45 / 100 else if n = 1 then 25 / 100 else 0

/-- The border placement call: stacked mode on `edgeHm`; its only candidate is
`(9.95, -0.25, 1)`, collision-free against the empty scene, whose footprint
reaches past `x = 10`. -/
def edgePlace : Except (PyErr × Heightmap) (Vec3 × Heightmap) :=
  getBlockPosition [] edgeHm ⟨1, 1, 1⟩ false rotId edgeRngU (fun _ => 0)

/-- Update of `hm20` by a unit footprint centered at `(-10.2, 0)`: the
footprint sticks out past the negative-x boundary; grid column `-1` is
computed and numpy wraps it to column 39. -/
def wrapRun : Heightmap × Option PyErr :=
  hm20.updateHeightRun ⟨-51 / 5, 0, 0⟩ ⟨1, 1, 1⟩ 1 0 (2 / 5)

/-- Update of `hm20` by a unit footprint centered at `(10.2, 0)`: the
footprint sticks out past the positive-x boundary; grid column 40 is written
and numpy raises. -/
def overRun : Heightmap × Option PyErr :=
  hm20.updateHeightRun ⟨51 / 5, 0, 0⟩ ⟨1, 1, 1⟩ 1 0 (2 / 5)

/-- A heightmap with one cell of nonzero height whose stored support fraction
is `1.0` (outside every candidate acceptance band the spec mentions). -/
def bandHm : Heightmap :=
  { hm20 with height := fun i j => if i = 5 ∧ j = 5 then 3 / 2 else 0 }

/-- Uniform stream for the two-block witness scene: second call draws
`x = 0.9` first. -/
def wRngU2 : ℕ → ℚ := fun n => if n = 0 then 9 / 10 else 0

/-- First witness block: pedestal size at the origin. -/
def wBlock1 : Block := ⟨⟨0, 0, 0⟩, ⟨1 / 2, 1 / 2, 3 / 2⟩, rotId⟩

/-- Second witness block: pedestal size at `(0.9, 0, 0)`. -/
def wBlock2 : Block := ⟨⟨9 / 10, 0, 0⟩, ⟨1 / 2, 1 / 2, 3 / 2⟩, rotId⟩

/-- The spec scenario heightmap: width and depth `10` at resolution `0.5`
(a 20×20 cell grid whose cell corners include the origin). -/
def hmC3 : Heightmap := Heightmap.init 10 10 (1 / 2)

/-- The scenario footprint: a 1×1 square centered on the cell corner at the
origin, unrotated. -/
def polyC3 : List Point := getPolygon ⟨0, 0, 0⟩ ⟨1, 1, 1⟩ 1 0

/-- The scenario update at `min_ratio = 0.5`. -/
def runC3Hm : Heightmap := (hmC3.updateHeightRun ⟨0, 0, 0⟩ ⟨1, 1, 1⟩ 1 0 (1 / 2)).1



theorem natSqrtIter_eq (fuel n guess : ℕ) (h : guess ≤ fuel) :
    natSqrtIter fuel n guess = Nat.sqrt.iter n guess := by
  induction fuel generalizing guess with
  | zero =>
    have hg : guess = 0 := Nat.le_zero.mp h
    subst hg
    unfold natSqrtIter Nat.sqrt.iter
    simp
  | succ f ih =>
    unfold natSqrtIter Nat.sqrt.iter
    by_cases hlt : (guess + n / guess) / 2 < guess
    · simp only [if_pos hlt, dif_pos hlt]
      exact ih _ (by omega)
    · simp only [if_neg hlt, dif_neg hlt]

theorem natSqrt_eq (n : ℕ) : natSqrt n = Nat.sqrt n := by
  unfold natSqrt Nat.sqrt
  by_cases h : n ≤ 1
  · simp [h]
  · rw [if_neg h, if_neg h]
    exact natSqrtIter_eq n n (n / 2) (Nat.div_le_self n 2)

theorem ratFloor_intFloor (q : ℚ) : q.floor = ⌊q⌋ :=
  (Rat.floor_def' q).trans Rat.floor_def.symm

theorem pyInt_of_nonneg {q : ℚ} (h : 0 ≤ q) : pyInt q = ⌊q⌋ := by
  unfold pyInt
  rw [if_pos h, ratFloor_intFloor]

/-- C7 helper: one coordinate of the round trip. -/
theorem roundtrip_coord (a res : ℚ) (hres : 0 < res) (ha : 0 ≤ a) :
    |a - (pyInt (a / res) : ℚ) * res| < res := by
  rw [pyInt_of_nonneg (div_nonneg ha hres.le)]
  have hfr : a - (⌊a / res⌋ : ℚ) * res = res * Int.fract (a / res) := by
    unfold Int.fract
    field_simp
    ring
  rw [hfr]
  have h0 : 0 ≤ res * Int.fract (a / res) :=
    mul_nonneg hres.le (Int.fract_nonneg _)
  rw [abs_of_nonneg h0]
  calc res * Int.fract (a / res) < res * 1 := by
        exact (mul_lt_mul_left hres).mpr (Int.fract_lt_one _)
    _ = res := mul_one res

/-- C7: within the grid bounds, `grid_to_world (world_to_grid (x, y))` is
within one resolution of `(x, y)` in each coordinate. -/
theorem grid_world_roundtrip (hm : Heightmap) (x y : ℚ)
    (hres : 0 < hm.resolution)
    (hx1 : -(hm.width / 2) ≤ x) (hx2 : x ≤ hm.width / 2)
    (hy1 : -(hm.depth / 2) ≤ y) (hy2 : y ≤ hm.depth / 2) :
    |x - (hm.gridToWorld (hm.worldToGrid x y).1 (hm.worldToGrid x y).2).1| < hm.resolution ∧
    |y - (hm.gridToWorld (hm.worldToGrid x y).1 (hm.worldToGrid x y).2).2| < hm.resolution := by
  unfold Heightmap.worldToGrid Heightmap.gridToWorld
  constructor
  · have := roundtrip_coord (x + hm.width / 2) hm.resolution hres (by linarith)
    have he : x - ((pyInt ((x + hm.width / 2) / hm.resolution) : ℚ) * hm.resolution
        - hm.width / 2) = (x + hm.width / 2)
        - (pyInt ((x + hm.width / 2) / hm.resolution) : ℚ) * hm.resolution := by ring
    simpa [he] using this
  · have := roundtrip_coord (y + hm.depth / 2) hm.resolution hres (by linarith)
    have he : y - ((pyInt ((y + hm.depth / 2) / hm.resolution) : ℚ) * hm.resolution
        - hm.depth / 2) = (y + hm.depth / 2)
        - (pyInt ((y + hm.depth / 2) / hm.resolution) : ℚ) * hm.resolution := by ring
    simpa [he] using this

theorem grid_world_roundtrip_witness :
    |(3 : ℚ) / 10 - ((hm20.gridToWorld (hm20.worldToGrid (3 / 10) (3 / 10)).1
      (hm20.worldToGrid (3 / 10) (3 / 10)).2).1)| < hm20.resolution ∧
    |(3 : ℚ) / 10 - ((hm20.gridToWorld (hm20.worldToGrid (3 / 10) (3 / 10)).1
      (hm20.worldToGrid (3 / 10) (3 / 10)).2).2)| < hm20.resolution :=
  grid_world_roundtrip hm20 (3 / 10) (3 / 10)
    (by with_unfolding_all decide) (by with_unfolding_all decide)
    (by with_unfolding_all decide) (by with_unfolding_all decide)
    (by with_unfolding_all decide)

/-- C8: ground-mode candidates are exactly 5, all at `z = 0`, with `x,y`
drawn from the uniform stream over `(-1, 1)`. -/
theorem ground_candidates_spec (hm : Heightmap) (size : Vec3) (rng : ℕ → ℚ)
    (hrng : ∀ n, -1 ≤ rng n ∧ rng n ≤ 1) :
    (hm.getValidPositions size true rng).length = 5 ∧
    ∀ p ∈ hm.getValidPositions size true rng,
      p.z = 0 ∧ -1 ≤ p.x ∧ p.x ≤ 1 ∧ -1 ≤ p.y ∧ p.y ≤ 1 := by
  unfold Heightmap.getValidPositions gvpGround
  simp only [if_pos]
  constructor
  · simp
  · intro p hp
    simp only [List.mem_map, List.mem_range] at hp
    obtain ⟨k, _, hk⟩ := hp
    subst hk
    exact ⟨rfl, (hrng _).1, (hrng _).2, (hrng _).1, (hrng _).2⟩

theorem ground_candidates_witness :
    (hm20.getValidPositions ⟨1, 1, 1⟩ true (fun _ => 0)).length = 5 :=
  (ground_candidates_spec hm20 ⟨1, 1, 1⟩ (fun _ => 0) (fun _ => by norm_num)).1

theorem gvpStacked_eq_perCell (hm : Heightmap) (rng : ℕ → ℚ) (cells : List Cell) (ctr : ℕ) :
    gvpStacked hm rng cells ctr =
      stackedPerCell hm rng (cells.filter (fun c => decide (hm.height c.1 c.2 ≠ 0))) ctr := by
  induction cells generalizing ctr with
  | nil => rfl
  | cons c rest ih =>
    obtain ⟨gx, gy⟩ := c
    by_cases h : hm.height gx gy = 0
    · rw [gvpStacked, if_neg (fun hne => hne h)]
      have hf : List.filter (fun c => decide (hm.height c.1 c.2 ≠ 0)) ((gx, gy) :: rest)
          = List.filter (fun c => decide (hm.height c.1 c.2 ≠ 0)) rest := by
        simp [List.filter_cons, h]
      rw [hf, ih]
    · rw [gvpStacked, if_pos h]
      have hf : List.filter (fun c => decide (hm.height c.1 c.2 ≠ 0)) ((gx, gy) :: rest)
          = (gx, gy) :: List.filter (fun c => decide (hm.height c.1 c.2 ≠ 0)) rest := by
        simp [List.filter_cons, h]
      rw [hf, stackedPerCell, ih]

theorem stackedPerCell_mem (hm : Heightmap) (rng : ℕ → ℚ)
    (hrng : ∀ n, |rng n| ≤ hm.resolution) (cells : List Cell) (ctr : ℕ) :
    ∀ p ∈ stackedPerCell hm rng cells ctr,
      ∃ c ∈ cells, p.z = hm.height c.1 c.2 ∧
        |p.x - (hm.gridToWorld c.1 c.2).1| ≤ hm.resolution ∧
        |p.y - (hm.gridToWorld c.1 c.2).2| ≤ hm.resolution := by
  induction cells generalizing ctr with
  | nil => intro p hp; cases hp
  | cons c rest ih =>
    obtain ⟨gx, gy⟩ := c
    intro p hp
    rw [stackedPerCell] at hp
    rcases List.mem_cons.mp hp with h | h
    · refine ⟨(gx, gy), List.mem_cons_self _ _, ?_⟩
      subst h
      refine ⟨rfl, ?_, ?_⟩
      · simpa using hrng ctr
      · simpa using hrng (ctr + 1)
    · obtain ⟨c, hc, hrest⟩ := ih (ctr + 2) p h
      exact ⟨c, List.mem_cons_of_mem _ hc, hrest⟩

/-- C9 (amended): stacked candidates are exactly one per grid cell with
nonzero stored height (the support-band test is commented out in the source
and not consulted): the scan equals the per-cell emission over the filtered
cell list; each candidate sits at its cell's world position jittered by at
most one resolution, at `z` = the stored height. -/
theorem stacked_candidates_spec (hm : Heightmap) (size : Vec3) (rng : ℕ → ℚ)
    (hrng : ∀ n, |rng n| ≤ hm.resolution) :
    hm.getValidPositions size false rng =
      stackedPerCell hm rng
        (hm.allCells.filter (fun c => decide (hm.height c.1 c.2 ≠ 0))) 0 ∧
    ∀ p ∈ hm.getValidPositions size false rng,
      ∃ c ∈ hm.allCells, hm.height c.1 c.2 ≠ 0 ∧ p.z = hm.height c.1 c.2 ∧
        |p.x - (hm.gridToWorld c.1 c.2).1| ≤ hm.resolution ∧
        |p.y - (hm.gridToWorld c.1 c.2).2| ≤ hm.resolution := by
  have hval : hm.getValidPositions size false rng = gvpStacked hm rng hm.allCells 0 := by
    unfold Heightmap.getValidPositions
    simp
  constructor
  · rw [hval, gvpStacked_eq_perCell]
  · intro p hp
    rw [hval, gvpStacked_eq_perCell] at hp
    obtain ⟨c, hc, hrest⟩ := stackedPerCell_mem hm rng hrng _ 0 p hp
    rw [List.mem_filter] at hc
    exact ⟨c, hc.1, by simpa using hc.2, hrest⟩

set_option maxRecDepth 2000000 in
/-- C9 counterexample: a cell with nonzero height whose stored support value
is `1.0` — outside the acceptance bands `[0.4, 1.0)` and `[0.5, 1.0)` the
claim admits — still yields a candidate: the claim predicts zero candidates
for this state, the code produces one. -/
theorem stacked_candidates_ignore_band :
    bandHm.occupancy 5 5 = 1 ∧ bandHm.height 5 5 ≠ 0 ∧
    (bandHm.getValidPositions ⟨1, 1, 1⟩ false (fun _ => 0)).length = 1 := by
  refine ⟨rfl, by norm_num [bandHm, hm20, Heightmap.init], ?_⟩
  with_unfolding_all decide

theorem stacked_candidates_spec_witness :
    bandHm.getValidPositions ⟨1, 1, 1⟩ false (fun _ => 0) =
      stackedPerCell bandHm (fun _ => 0)
        (bandHm.allCells.filter (fun c => decide (bandHm.height c.1 c.2 ≠ 0))) 0 :=
  (stacked_candidates_spec bandHm ⟨1, 1, 1⟩ (fun _ => 0)
    (fun _ => by
      show |(0 : ℚ)| ≤ bandHm.resolution
      with_unfolding_all decide)).1



theorem sepOn_comm (v1 v2 : List Vec3) (a : Vec3) : sepOn v1 v2 a = sepOn v2 v1 a := by
  unfold sepOn
  exact decide_eq_decide.mpr or_comm

theorem dot_smul_right (v a : Vec3) (c : ℚ) : v.dot (Vec3.smul c a) = c * v.dot a := by
  unfold Vec3.dot Vec3.smul
  ring

theorem mul_min_of_nonpos (c a b : ℚ) (hc : c ≤ 0) : c * min a b = max (c * a) (c * b) := by
  rcases le_total a b with h | h
  · rw [min_eq_left h, max_eq_left (by nlinarith)]
  · rw [min_eq_right h, max_eq_right (by nlinarith)]

theorem mul_max_of_nonpos (c a b : ℚ) (hc : c ≤ 0) : c * max a b = min (c * a) (c * b) := by
  rcases le_total a b with h | h
  · rw [max_eq_right h, min_eq_right (by nlinarith)]
  · rw [max_eq_left h, min_eq_left (by nlinarith)]

theorem foldl_min_map_mul_nonneg (c : ℚ) (hc : 0 ≤ c) (l : List ℚ) (init : ℚ) :
    (l.map (fun q => c * q)).foldl min (c * init) = c * l.foldl min init := by
  induction l generalizing init with
  | nil => rfl
  | cons h t ih =>
    simp only [List.map_cons, List.foldl_cons]
    rw [← mul_min_of_nonneg _ _ hc]
    exact ih _

theorem foldl_max_map_mul_nonneg (c : ℚ) (hc : 0 ≤ c) (l : List ℚ) (init : ℚ) :
    (l.map (fun q => c * q)).foldl max (c * init) = c * l.foldl max init := by
  induction l generalizing init with
  | nil => rfl
  | cons h t ih =>
    simp only [List.map_cons, List.foldl_cons]
    rw [← mul_max_of_nonneg _ _ hc]
    exact ih _

theorem foldl_min_map_mul_nonpos (c : ℚ) (hc : c ≤ 0) (l : List ℚ) (init : ℚ) :
    (l.map (fun q => c * q)).foldl min (c * init) = c * l.foldl max init := by
  induction l generalizing init with
  | nil => rfl
  | cons h t ih =>
    simp only [List.map_cons, List.foldl_cons]
    rw [← mul_max_of_nonpos c _ _ hc]
    exact ih _

theorem foldl_max_map_mul_nonpos (c : ℚ) (hc : c ≤ 0) (l : List ℚ) (init : ℚ) :
    (l.map (fun q => c * q)).foldl max (c * init) = c * l.foldl min init := by
  induction l generalizing init with
  | nil => rfl
  | cons h t ih =>
    simp only [List.map_cons, List.foldl_cons]
    rw [← mul_min_of_nonpos c _ _ hc]
    exact ih _

theorem listMinQ_map_mul_nonneg (c : ℚ) (hc : 0 ≤ c) (l : List ℚ) :
    listMinQ (l.map (fun q => c * q)) = c * listMinQ l := by
  unfold listMinQ
  cases l with
  | nil => simp
  | cons h t =>
    simp only [List.map_cons, List.headD_cons]
    exact foldl_min_map_mul_nonneg c hc (h :: t) h

theorem listMaxQ_map_mul_nonneg (c : ℚ) (hc : 0 ≤ c) (l : List ℚ) :
    listMaxQ (l.map (fun q => c * q)) = c * listMaxQ l := by
  unfold listMaxQ
  cases l with
  | nil => simp
  | cons h t =>
    simp only [List.map_cons, List.headD_cons]
    exact foldl_max_map_mul_nonneg c hc (h :: t) h

theorem listMinQ_map_mul_nonpos (c : ℚ) (hc : c ≤ 0) (l : List ℚ) :
    listMinQ (l.map (fun q => c * q)) = c * listMaxQ l := by
  unfold listMinQ listMaxQ
  cases l with
  | nil => simp
  | cons h t =>
    simp only [List.map_cons, List.headD_cons]
    exact foldl_min_map_mul_nonpos c hc (h :: t) h

theorem listMaxQ_map_mul_nonpos (c : ℚ) (hc : c ≤ 0) (l : List ℚ) :
    listMaxQ (l.map (fun q => c * q)) = c * listMinQ l := by
  unfold listMinQ listMaxQ
  cases l with
  | nil => simp
  | cons h t =>
    simp only [List.map_cons, List.headD_cons]
    exact foldl_max_map_mul_nonpos c hc (h :: t) h

theorem dots_smul (vs : List Vec3) (a : Vec3) (c : ℚ) :
    vs.map (fun v => v.dot (Vec3.smul c a)) = (vs.map (fun v => v.dot a)).map (fun q => c * q) := by
  simp only [List.map_map]
  exact List.map_congr_left (fun v _ => dot_smul_right v a c)

theorem sepOn_smul (v1 v2 : List Vec3) (a : Vec3) (c : ℚ) (hc : c ≠ 0) :
    sepOn v1 v2 (Vec3.smul c a) = sepOn v1 v2 a := by
  unfold sepOn projectVertices
  apply decide_eq_decide.mpr
  rw [dots_smul v1 a c, dots_smul v2 a c]
  rcases lt_or_gt_of_ne hc with hneg | hpos
  · rw [listMinQ_map_mul_nonpos c hneg.le, listMaxQ_map_mul_nonpos c hneg.le,
      listMinQ_map_mul_nonpos c hneg.le, listMaxQ_map_mul_nonpos c hneg.le,
      mul_le_mul_left_of_neg hneg, mul_le_mul_left_of_neg hneg]
    exact or_comm
  · rw [listMinQ_map_mul_nonneg c hpos.le, listMaxQ_map_mul_nonneg c hpos.le,
      listMinQ_map_mul_nonneg c hpos.le, listMaxQ_map_mul_nonneg c hpos.le,
      mul_le_mul_left hpos, mul_le_mul_left hpos]



theorem pyRound_intCast (k : ℤ) : pyRound (k : ℚ) = k := by
  unfold pyRound
  rw [ratFloor_intFloor, Int.floor_intCast]
  norm_num

theorem natSqrt_mul_self (k : ℕ) : natSqrt (k * k) = k := by
  rw [natSqrt_eq, ← pow_two]
  exact Nat.sqrt_eq' k

theorem int_toNat_mul_self (a : ℤ) : (a * a).toNat = a.natAbs * a.natAbs := by
  rw [← Int.natAbs_mul_self]
  exact Int.toNat_natCast _

theorem isSquareRat_sq (c : ℚ) : isSquareRat (c * c) = true := by
  unfold isSquareRat
  rw [Rat.mul_self_num, Rat.mul_self_den, int_toNat_mul_self, natSqrt_mul_self, natSqrt_mul_self]
  simp

theorem ratSqrt_sq (c : ℚ) : ratSqrt (c * c) = |c| := by
  unfold ratSqrt
  rw [Rat.mul_self_num, Rat.mul_self_den, int_toNat_mul_self, natSqrt_mul_self, natSqrt_mul_self]
  have hden : |((c.den : ℚ))| = (c.den : ℚ) :=
    abs_of_pos (by exact_mod_cast c.den_pos)
  calc ((c.num.natAbs : ℚ)) / (c.den : ℚ)
      = |(c.num : ℚ)| / |(c.den : ℚ)| := by rw [Int.cast_natAbs, Int.cast_abs, hden]
    _ = |((c.num : ℚ) / (c.den : ℚ))| := (abs_div _ _).symm
    _ = |c| := by rw [Rat.num_div_den c]

theorem roundKeyComp_sq_self (c : ℚ) (hc : c ≠ 0) :
    roundKeyComp c (c * c) = if 0 < c then 1000 else -1000 := by
  unfold roundKeyComp
  rw [isSquareRat_sq, if_pos rfl, ratSqrt_sq]
  rcases lt_or_gt_of_ne hc with hneg | hpos
  · rw [abs_of_neg hneg, if_neg (by linarith)]
    have hv : 1000 * c / -c = ((-1000 : ℤ) : ℚ) := by
      push_cast
      rw [div_eq_iff (neg_ne_zero.mpr hc)]
      ring
    rw [hv, pyRound_intCast]
  · rw [abs_of_pos hpos, if_pos hpos]
    have hv : 1000 * c / c = ((1000 : ℤ) : ℚ) := by
      push_cast
      rw [div_eq_iff hc]
    rw [hv, pyRound_intCast]

theorem roundKeyComp_sq_zero (c : ℚ) : roundKeyComp 0 (c * c) = 0 := by
  unfold roundKeyComp
  rw [isSquareRat_sq, if_pos rfl]
  have hv : 1000 * (0 : ℚ) / ratSqrt (c * c) = ((0 : ℤ) : ℚ) := by push_cast; ring
  rw [hv, pyRound_intCast]

theorem axisKey_x (c : ℚ) (hc : c ≠ 0) :
    axisKey ⟨c, 0, 0⟩ = (if 0 < c then 1000 else -1000, 0, 0) := by
  have hs : (Vec3.mk c 0 0).normSq = c * c := by unfold Vec3.normSq Vec3.dot; ring
  simp only [axisKey, hs]
  rw [if_neg (mul_self_ne_zero.mpr hc), roundKeyComp_sq_self c hc, roundKeyComp_sq_zero]

theorem axisKey_y (c : ℚ) (hc : c ≠ 0) :
    axisKey ⟨0, c, 0⟩ = (0, if 0 < c then 1000 else -1000, 0) := by
  have hs : (Vec3.mk 0 c 0).normSq = c * c := by unfold Vec3.normSq Vec3.dot; ring
  simp only [axisKey, hs]
  rw [if_neg (mul_self_ne_zero.mpr hc), roundKeyComp_sq_self c hc, roundKeyComp_sq_zero]

theorem axisKey_z (c : ℚ) (hc : c ≠ 0) :
    axisKey ⟨0, 0, c⟩ = (0, 0, if 0 < c then 1000 else -1000) := by
  have hs : (Vec3.mk 0 0 c).normSq = c * c := by unfold Vec3.normSq Vec3.dot; ring
  simp only [axisKey, hs]
  rw [if_neg (mul_self_ne_zero.mpr hc), roundKeyComp_sq_self c hc, roundKeyComp_sq_zero]

theorem axisKey_zeroVec : axisKey ⟨0, 0, 0⟩ = (0, 0, 0) := by
  have hs : (Vec3.mk 0 0 0).normSq = 0 := by unfold Vec3.normSq Vec3.dot; ring
  simp [axisKey, hs]

theorem AA_canon (v : Vec3) (hv : AxisAligned v) :
    v = ⟨0, 0, 0⟩ ∨ ∃ c : ℚ, c ≠ 0 ∧ (v = ⟨c, 0, 0⟩ ∨ v = ⟨0, c, 0⟩ ∨ v = ⟨0, 0, c⟩) := by
  obtain ⟨x, y, z⟩ := v
  rcases hv with ⟨hy, hz⟩ | ⟨hx, hz⟩ | ⟨hx, hy⟩
  · simp only at hy hz
    subst hy hz
    by_cases h : x = 0
    · left; rw [h]
    · right; exact ⟨x, h, Or.inl rfl⟩
  · simp only at hx hz
    subst hx hz
    by_cases h : y = 0
    · left; rw [h]
    · right; exact ⟨y, h, Or.inr (Or.inl rfl)⟩
  · simp only at hx hy
    subst hx hy
    by_cases h : z = 0
    · left; rw [h]
    · right; exact ⟨z, h, Or.inr (Or.inr rfl)⟩



theorem AA_cross (a b : Vec3) (ha : AxisAligned a) (hb : AxisAligned b) :
    AxisAligned (a.cross b) := by
  obtain ⟨ax, ay, az⟩ := a
  obtain ⟨bx, by', bz⟩ := b
  unfold AxisAligned at *
  unfold Vec3.cross
  rcases ha with ⟨h1, h2⟩ | ⟨h1, h2⟩ | ⟨h1, h2⟩ <;>
    rcases hb with ⟨h3, h4⟩ | ⟨h3, h4⟩ | ⟨h3, h4⟩ <;>
    simp only at h1 h2 h3 h4 <;> subst h1 <;> subst h2 <;> subst h3 <;> subst h4 <;>
    simp

theorem if_pm1000_ne_zero (c : ℚ) : (if 0 < c then (1000 : ℤ) else -1000) ≠ 0 := by
  by_cases h : 0 < c <;> simp [h]

theorem smul_axis_x (c d : ℚ) (hc : c ≠ 0) : Vec3.smul (d / c) ⟨c, 0, 0⟩ = ⟨d, 0, 0⟩ := by
  unfold Vec3.smul
  rw [div_mul_cancel₀ d hc]
  norm_num

theorem smul_axis_y (c d : ℚ) (hc : c ≠ 0) : Vec3.smul (d / c) ⟨0, c, 0⟩ = ⟨0, d, 0⟩ := by
  unfold Vec3.smul
  rw [div_mul_cancel₀ d hc]
  norm_num

theorem smul_axis_z (c d : ℚ) (hc : c ≠ 0) : Vec3.smul (d / c) ⟨0, 0, c⟩ = ⟨0, 0, d⟩ := by
  unfold Vec3.smul
  rw [div_mul_cancel₀ d hc]
  norm_num

theorem sepOn_congr_AA (v1 v2 : List Vec3) (v w : Vec3) (hv : AxisAligned v)
    (hw : AxisAligned w) (hk : axisKey v = axisKey w) :
    sepOn v1 v2 v = sepOn v1 v2 w := by
  rcases AA_canon v hv with hv0 | ⟨c, hc, hvc⟩
  · rcases AA_canon w hw with hw0 | ⟨d, hd, hwc⟩
    · rw [hv0, hw0]
    · exfalso
      rw [hv0, axisKey_zeroVec] at hk
      rcases hwc with h | h | h <;> rw [h] at hk
      · rw [axisKey_x d hd] at hk
        exact if_pm1000_ne_zero d (by simpa using (congrArg Prod.fst hk).symm)
      · rw [axisKey_y d hd] at hk
        exact if_pm1000_ne_zero d (by simpa using (congrArg (fun t => t.2.1) hk).symm)
      · rw [axisKey_z d hd] at hk
        exact if_pm1000_ne_zero d (by simpa using (congrArg (fun t => t.2.2) hk).symm)
  · rcases AA_canon w hw with hw0 | ⟨d, hd, hwc⟩
    · exfalso
      rw [hw0, axisKey_zeroVec] at hk
      rcases hvc with h | h | h <;> rw [h] at hk
      · rw [axisKey_x c hc] at hk
        exact if_pm1000_ne_zero c (by simpa using congrArg Prod.fst hk)
      · rw [axisKey_y c hc] at hk
        exact if_pm1000_ne_zero c (by simpa using congrArg (fun t => t.2.1) hk)
      · rw [axisKey_z c hc] at hk
        exact if_pm1000_ne_zero c (by simpa using congrArg (fun t => t.2.2) hk)
    · rcases hvc with h | h | h <;> rcases hwc with h' | h' | h' <;> rw [h, h'] at hk ⊢
      · rw [← smul_axis_x c d hc, sepOn_smul v1 v2 _ _ (div_ne_zero hd hc)]
      · exfalso
        rw [axisKey_x c hc, axisKey_y d hd] at hk
        exact if_pm1000_ne_zero c (by simpa using congrArg Prod.fst hk)
      · exfalso
        rw [axisKey_x c hc, axisKey_z d hd] at hk
        exact if_pm1000_ne_zero c (by simpa using congrArg Prod.fst hk)
      · exfalso
        rw [axisKey_y c hc, axisKey_x d hd] at hk
        exact if_pm1000_ne_zero d (by simpa using (congrArg Prod.fst hk).symm)
      · rw [← smul_axis_y c d hc, sepOn_smul v1 v2 _ _ (div_ne_zero hd hc)]
      · exfalso
        rw [axisKey_y c hc, axisKey_z d hd] at hk
        exact if_pm1000_ne_zero c (by simpa using congrArg (fun t => t.2.1) hk)
      · exfalso
        rw [axisKey_z c hc, axisKey_x d hd] at hk
        exact if_pm1000_ne_zero d (by simpa using (congrArg Prod.fst hk).symm)
      · exfalso
        rw [axisKey_z c hc, axisKey_y d hd] at hk
        exact if_pm1000_ne_zero d (by simpa using (congrArg (fun t => t.2.1) hk).symm)
      · rw [← smul_axis_z c d hc, sepOn_smul v1 v2 _ _ (div_ne_zero hd hc)]



theorem Vec3.eq_of_fields {a b : Vec3} (hx : a.x = b.x) (hy : a.y = b.y) (hz : a.z = b.z) :
    a = b := by
  cases a; cases b; simp_all

theorem Vec3.add_def (a b : Vec3) : a + b = Vec3.add a b := rfl

theorem Vec3.sub_def (a b : Vec3) : a - b = Vec3.sub a b := rfl

theorem boxDiff (p : Vec3) (R : Mat3) (a b : Vec3) :
    (p + R.mulVec a) - (p + R.mulVec b) = R.mulVec (a - b) := by
  apply Vec3.eq_of_fields <;>
    simp [Vec3.add_def, Vec3.sub_def, Vec3.add, Vec3.sub, Mat3.mulVec, Vec3.dot] <;> ring

theorem faces_eval (p s : Vec3) (R : Mat3) :
    getBlockFaces (getBlockVertices p s R) =
      [[boxVert p s R 0, boxVert p s R 1, boxVert p s R 3, boxVert p s R 2],
       [boxVert p s R 4, boxVert p s R 5, boxVert p s R 7, boxVert p s R 6],
       [boxVert p s R 0, boxVert p s R 4, boxVert p s R 6, boxVert p s R 2],
       [boxVert p s R 1, boxVert p s R 5, boxVert p s R 7, boxVert p s R 3],
       [boxVert p s R 0, boxVert p s R 1, boxVert p s R 5, boxVert p s R 4],
       [boxVert p s R 2, boxVert p s R 3, boxVert p s R 7, boxVert p s R 6]] := rfl

theorem edges_eval (a b c d : Vec3) :
    getFaceEdges [a, b, c, d] = [b - a, c - b, d - c, a - d] := by
  simp [getFaceEdges, List.range_succ]

theorem boxVertDiff (p s : Vec3) (R : Mat3) (i j : ℕ) :
    boxVert p s R j - boxVert p s R i = R.mulVec (boxLocal s j - boxLocal s i) :=
  boxDiff p R (boxLocal s j) (boxLocal s i)

theorem yaw90_AA (R : Mat3) (hR : IsYaw90 R) (v : Vec3) (hv : AxisAligned v) :
    AxisAligned (R.mulVec v) := by
  obtain ⟨vx, vy, vz⟩ := v
  rcases hR with rfl | rfl | rfl | rfl <;>
    rcases hv with ⟨h1, h2⟩ | ⟨h1, h2⟩ | ⟨h1, h2⟩ <;>
    simp only at h1 h2 <;> subst h1 <;> subst h2 <;>
    simp [Mat3.mulVec, Vec3.dot, idMat, rotZ90, rotZ180, rotZ270, AxisAligned]

theorem yaw90_cross (R : Mat3) (hR : IsYaw90 R) (a b : Vec3) :
    (R.mulVec a).cross (R.mulVec b) = R.mulVec (a.cross b) := by
  rcases hR with rfl | rfl | rfl | rfl <;>
    (apply Vec3.eq_of_fields <;>
      simp [Mat3.mulVec, Vec3.dot, Vec3.cross, idMat, rotZ90, rotZ180, rotZ270] <;> ring)

theorem face_edges_AA (p s : Vec3) (R : Mat3) (hR : IsYaw90 R) :
    ∀ f ∈ getBlockFaces (getBlockVertices p s R), ∀ e ∈ getFaceEdges f, AxisAligned e := by
  intro f hf
  rw [faces_eval] at hf
  simp only [List.mem_cons, List.not_mem_nil, or_false] at hf
  rcases hf with rfl | rfl | rfl | rfl | rfl | rfl <;>
    (intro e he
     rw [edges_eval] at he
     simp only [List.mem_cons, List.not_mem_nil, or_false] at he
     rcases he with rfl | rfl | rfl | rfl <;>
       (rw [boxVertDiff]
        apply yaw90_AA R hR
        simp only [boxLocal, Vec3.sub_def, Vec3.sub, AxisAligned]
        first
          | (refine Or.inl ⟨?_, ?_⟩ <;> ring1)
          | (refine Or.inr (Or.inl ⟨?_, ?_⟩) <;> ring1)
          | (refine Or.inr (Or.inr ⟨?_, ?_⟩) <;> ring1)))

theorem normal_eval (a b c d : Vec3) :
    getFaceNormal [a, b, c, d] = (b - a).cross (c - a) := rfl

theorem face_normals_AA (p s : Vec3) (R : Mat3) (hR : IsYaw90 R) :
    ∀ f ∈ getBlockFaces (getBlockVertices p s R), AxisAligned (getFaceNormal f) := by
  intro f hf
  rw [faces_eval] at hf
  simp only [List.mem_cons, List.not_mem_nil, or_false] at hf
  rcases hf with rfl | rfl | rfl | rfl | rfl | rfl <;>
    (rw [normal_eval, boxVertDiff, boxVertDiff, yaw90_cross R hR]
     apply yaw90_AA R hR
     simp only [boxLocal, Vec3.sub_def, Vec3.sub, Vec3.cross, AxisAligned]
     first
       | (refine Or.inl ⟨?_, ?_⟩ <;> ring1)
       | (refine Or.inr (Or.inl ⟨?_, ?_⟩) <;> ring1)
       | (refine Or.inr (Or.inr ⟨?_, ?_⟩) <;> ring1))


theorem dedupAxes_subset (l : List Vec3) (seen : List (ℤ × ℤ × ℤ)) :
    ∀ v ∈ dedupAxes l seen, v ∈ l := by
  induction l generalizing seen with
  | nil => intro v hv; cases hv
  | cons h t ih =>
    intro v hv
    rw [dedupAxes] at hv
    by_cases hmem : axisKey h ∈ seen
    · rw [if_pos hmem] at hv
      exact List.mem_cons_of_mem _ (ih seen v hv)
    · rw [if_neg hmem] at hv
      rcases List.mem_cons.mp hv with h1 | h1
      · exact h1 ▸ List.mem_cons_self _ _
      · exact List.mem_cons_of_mem _ (ih _ v h1)

theorem dedupAxes_cover (l : List Vec3) (seen : List (ℤ × ℤ × ℤ)) (v : Vec3) (hv : v ∈ l) :
    axisKey v ∈ seen ∨ ∃ w ∈ dedupAxes l seen, axisKey w = axisKey v := by
  induction l generalizing seen with
  | nil => cases hv
  | cons h t ih =>
    rw [dedupAxes]
    by_cases hmem : axisKey h ∈ seen
    · rw [if_pos hmem]
      rcases List.mem_cons.mp hv with h1 | h1
      · left; rw [h1]; exact hmem
      · exact ih seen h1
    · rw [if_neg hmem]
      rcases List.mem_cons.mp hv with h1 | h1
      · right
        exact ⟨h, List.mem_cons_self _ _, by rw [h1]⟩
      · rcases ih (axisKey h :: seen) h1 with hin | ⟨w, hw, hkw⟩
        · rcases List.mem_cons.mp hin with he | he
          · right
            exact ⟨h, List.mem_cons_self _ _, he.symm⟩
          · left; exact he
        · right
          exact ⟨w, List.mem_cons_of_mem _ hw, hkw⟩

theorem any_sep_dedup (v1 v2 : List Vec3) (l : List Vec3)
    (hAA : ∀ v ∈ l, AxisAligned v) :
    (dedupAxes l []).any (sepOn v1 v2) = l.any (sepOn v1 v2) := by
  rw [Bool.eq_iff_iff, List.any_eq_true, List.any_eq_true]
  constructor
  · rintro ⟨v, hv, hsep⟩
    exact ⟨v, dedupAxes_subset l [] v hv, hsep⟩
  · rintro ⟨v, hv, hsep⟩
    rcases dedupAxes_cover l [] v hv with hin | ⟨w, hw, hkw⟩
    · cases hin
    · refine ⟨w, hw, ?_⟩
      rw [sepOn_congr_AA v1 v2 w v (hAA w (dedupAxes_subset l [] w hw)) (hAA v hv) hkw]
      exact hsep

theorem mem_crossAxes {f1s f2s : List (List Vec3)} {v : Vec3} :
    v ∈ crossAxes f1s f2s ↔
      ∃ f1 ∈ f1s, ∃ f2 ∈ f2s, ∃ e1 ∈ getFaceEdges f1, ∃ e2 ∈ getFaceEdges f2,
        crossEps < (e1.cross e2).normSq ∧ v = e1.cross e2 := by
  unfold crossAxes
  simp only [List.mem_flatMap, List.mem_map, List.mem_filter, decide_eq_true_eq]
  constructor
  · rintro ⟨f1, hf1, f2, hf2, e1, he1, e2, ⟨he2, heps⟩, rfl⟩
    exact ⟨f1, hf1, f2, hf2, e1, he1, e2, he2, heps, rfl⟩
  · rintro ⟨f1, hf1, f2, hf2, e1, he1, e2, he2, heps, rfl⟩
    exact ⟨f1, hf1, f2, hf2, e1, he1, e2, ⟨he2, heps⟩, rfl⟩

theorem cross_anticomm (a b : Vec3) : b.cross a = Vec3.smul (-1) (a.cross b) := by
  apply Vec3.eq_of_fields <;> simp [Vec3.cross, Vec3.smul] <;> ring

theorem normSq_smul_neg_one (v : Vec3) : (Vec3.smul (-1) v).normSq = v.normSq := by
  simp only [Vec3.smul, Vec3.normSq, Vec3.dot]
  ring

theorem allAxes_AA (p1 s1 p2 s2 : Vec3) (R1 R2 : Mat3) (h1 : IsYaw90 R1) (h2 : IsYaw90 R2) :
    ∀ v ∈ (getBlockFaces (getBlockVertices p1 s1 R1)).map getFaceNormal ++
        (getBlockFaces (getBlockVertices p2 s2 R2)).map getFaceNormal ++
        crossAxes (getBlockFaces (getBlockVertices p1 s1 R1))
          (getBlockFaces (getBlockVertices p2 s2 R2)), AxisAligned v := by
  intro v hv
  rcases List.mem_append.mp hv with hv' | hv'
  · rcases List.mem_append.mp hv' with hn | hn
    · obtain ⟨f, hf, rfl⟩ := List.mem_map.mp hn
      exact face_normals_AA p1 s1 R1 h1 f hf
    · obtain ⟨f, hf, rfl⟩ := List.mem_map.mp hn
      exact face_normals_AA p2 s2 R2 h2 f hf
  · obtain ⟨f1, hf1, f2, hf2, e1, he1, e2, he2, _, rfl⟩ := mem_crossAxes.mp hv'
    exact AA_cross e1 e2 (face_edges_AA p1 s1 R1 h1 f1 hf1 e1 he1)
      (face_edges_AA p2 s2 R2 h2 f2 hf2 e2 he2)

theorem any_sep_swap_mp (V1 V2 : List Vec3) (F1 F2 : List (List Vec3))
    (h : ∃ v ∈ F1.map getFaceNormal ++ F2.map getFaceNormal ++ crossAxes F1 F2,
      sepOn V1 V2 v = true) :
    ∃ v ∈ F2.map getFaceNormal ++ F1.map getFaceNormal ++ crossAxes F2 F1,
      sepOn V2 V1 v = true := by
  obtain ⟨v, hv, hsep⟩ := h
  rcases List.mem_append.mp hv with hv' | hv'
  · rcases List.mem_append.mp hv' with hn | hn
    · refine ⟨v, List.mem_append.mpr (Or.inl (List.mem_append.mpr (Or.inr hn))), ?_⟩
      rw [sepOn_comm]
      exact hsep
    · refine ⟨v, List.mem_append.mpr (Or.inl (List.mem_append.mpr (Or.inl hn))), ?_⟩
      rw [sepOn_comm]
      exact hsep
  · obtain ⟨f1, hf1, f2, hf2, e1, he1, e2, he2, heps, rfl⟩ := mem_crossAxes.mp hv'
    refine ⟨e2.cross e1, List.mem_append.mpr (Or.inr (mem_crossAxes.mpr
      ⟨f2, hf2, f1, hf1, e2, he2, e1, he1, ?_, rfl⟩)), ?_⟩
    · rw [cross_anticomm, normSq_smul_neg_one]
      exact heps
    · rw [sepOn_comm, cross_anticomm, sepOn_smul _ _ _ _ (by norm_num)]
      exact hsep

theorem sat_yaw90_symm_aux (p1 s1 p2 s2 : Vec3) (R1 R2 : Mat3)
    (h1 : IsYaw90 R1) (h2 : IsYaw90 R2) :
    separatingAxisTheorem (getBlockVertices p1 s1 R1) (getBlockVertices p2 s2 R2) =
    separatingAxisTheorem (getBlockVertices p2 s2 R2) (getBlockVertices p1 s1 R1) := by
  unfold separatingAxisTheorem getAllSeparatingAxes
  simp only []
  congr 1
  rw [any_sep_dedup _ _ _ (allAxes_AA p1 s1 p2 s2 R1 R2 h1 h2),
    any_sep_dedup _ _ _ (allAxes_AA p2 s2 p1 s1 R2 R1 h2 h1)]
  rw [Bool.eq_iff_iff, List.any_eq_true, List.any_eq_true]
  exact ⟨any_sep_swap_mp _ _ _ _, any_sep_swap_mp _ _ _ _⟩

/-- The rows of `asymR` are orthonormal and its determinant (triple product of
the rows) is 1: `asymR` is a genuine rotation matrix, so `asymVertsB` is a
genuine box vertex set. -/
theorem asymR_rotation_cert :
    asymR.r1.dot asymR.r1 = 1 ∧ asymR.r2.dot asymR.r2 = 1 ∧ asymR.r3.dot asymR.r3 = 1 ∧
    asymR.r1.dot asymR.r2 = 0 ∧ asymR.r1.dot asymR.r3 = 0 ∧ asymR.r2.dot asymR.r3 = 0 ∧
    asymR.r1.dot (asymR.r2.cross asymR.r3) = 1 := by
  with_unfolding_all decide

set_option maxRecDepth 4000000 in
/-- C5: two axis-aligned unit cubes centered at `(0,0,0)` and `(0.9,0,0)`
collide under the SAT test; centered at `(0,0,0)` and `(1.1,0,0)` they do
not. -/
theorem sat_unit_boxes_scenario :
    separatingAxisTheorem (getBlockVertices ⟨0, 0, 0⟩ ⟨1, 1, 1⟩ idMat)
        (getBlockVertices ⟨9 / 10, 0, 0⟩ ⟨1, 1, 1⟩ idMat) = true ∧
    separatingAxisTheorem (getBlockVertices ⟨0, 0, 0⟩ ⟨1, 1, 1⟩ idMat)
        (getBlockVertices ⟨11 / 10, 0, 0⟩ ⟨1, 1, 1⟩ idMat) = false := by
  constructor
  · with_unfolding_all decide
  · with_unfolding_all decide

set_option maxRecDepth 4000000 in
/-- C6 counterexample: `separating_axis_theorem` is order dependent.  The two
unit cubes `asymVertsA` (axis aligned, at the origin) and `asymVertsB`
(rotated by the exact rotation `asymR`, centered at `(asymP, 0, 0)`) are
geometrically disjoint (separated along x with margin `1e-8`).  With A first
the test sees A's exact x face normal and reports no collision; with B first
that axis is deduplicated away behind B's slightly tilted face normal (the
rounded keys agree) and every surviving representative axis overlaps, so the
test reports a collision. -/
theorem sat_order_dependent :
    separatingAxisTheorem asymVertsA asymVertsB = false ∧
    separatingAxisTheorem asymVertsB asymVertsA = true := by
  constructor
  · with_unfolding_all decide
  · with_unfolding_all decide

/-- C6 (amended): the SAT test is symmetric for boxes whose rotations are
quarter-turn yaw rotations — the only rotations `generate_blocks_data`
produces.  (For general rotations the rounding-based deduplication makes the
test order dependent, see the counterexample.) -/
theorem sat_symm_yaw90 (p1 s1 p2 s2 : Vec3) (R1 R2 : Mat3)
    (h1 : IsYaw90 R1) (h2 : IsYaw90 R2) :
    separatingAxisTheorem (getBlockVertices p1 s1 R1) (getBlockVertices p2 s2 R2) =
    separatingAxisTheorem (getBlockVertices p2 s2 R2) (getBlockVertices p1 s1 R1) :=
  sat_yaw90_symm_aux p1 s1 p2 s2 R1 R2 h1 h2

theorem sat_symm_yaw90_witness :
    separatingAxisTheorem (getBlockVertices ⟨0, 0, 0⟩ ⟨1, 2, 3⟩ rotZ90)
        (getBlockVertices ⟨1, 1, 0⟩ ⟨2, 1, 1⟩ idMat) =
    separatingAxisTheorem (getBlockVertices ⟨1, 1, 0⟩ ⟨2, 1, 1⟩ idMat)
        (getBlockVertices ⟨0, 0, 0⟩ ⟨1, 2, 3⟩ rotZ90) :=
  sat_symm_yaw90 ⟨0, 0, 0⟩ ⟨1, 2, 3⟩ ⟨1, 1, 0⟩ ⟨2, 1, 1⟩ rotZ90 idMat
    (Or.inr (Or.inl rfl)) (Or.inl rfl)

theorem placeLoop_ok_check (existing : List Block) (size : Vec3) (rot : Rot) (rngC : ℕ → ℕ)
    (hm : Heightmap) :
    ∀ (fuel : ℕ) (cands : List Vec3) (k : ℕ) (pos : Vec3),
      posOf (placeLoop existing size rot rngC hm fuel cands k) = some pos →
      checkBlockCollision existing pos size rot.m = false := by
  intro fuel
  induction fuel with
  | zero =>
    intro cands k pos h
    cases cands with
    | nil => cases h
    | cons a t => cases h
  | succ f ih =>
    intro cands k pos h
    cases cands with
    | nil => cases h
    | cons a t =>
      rw [placeLoop] at h
      by_cases hc : checkBlockCollision existing
          ((a :: t).getD (rngC k % (a :: t).length) default) size rot.m
      · rw [if_pos hc] at h
        exact ih _ _ _ h
      · rw [if_neg hc] at h
        rcases hru : hm.updateHeightRun ((a :: t).getD (rngC k % (a :: t).length) default)
            size rot.c rot.s (2 / 5) with ⟨hm2, e⟩
        rw [hru] at h
        cases e with
        | none =>
          simp only [posOf] at h
          rw [← Option.some_inj.mp h]
          exact eq_false_of_ne_true hc
        | some e => cases h

theorem getBlockPosition_ok_check (existing : List Block) (hm : Heightmap) (size : Vec3)
    (flag : Bool) (rot : Rot) (rngU : ℕ → ℚ) (rngC : ℕ → ℕ) (pos : Vec3)
    (h : posOf (getBlockPosition existing hm size flag rot rngU rngC) = some pos) :
    checkBlockCollision existing pos size rot.m = false := by
  unfold getBlockPosition at h
  exact placeLoop_ok_check existing size rot rngC hm _ _ _ pos h

theorem committed_pairwise_ordered (bs : List Block) (hc : Committed bs) :
    ∀ i j : ℕ, ∀ hi : i < bs.length, ∀ hj : j < bs.length, i < j →
      separatingAxisTheorem (blockVerts bs[j]) (blockVerts bs[i]) = false := by
  induction hc with
  | nil =>
    intro i j hi hj hij
    cases hi
  | place bs hm size flag rot rngU rngC pos hprev hok ih =>
    intro i j hi hj hij
    rw [List.length_append, List.length_singleton] at hj
    by_cases hjl : j < bs.length
    · rw [List.getElem_append_left hjl, List.getElem_append_left (by omega)]
      exact ih i j (by omega) hjl hij
    · have hje : j = bs.length := by omega
      have hil : i < bs.length := by omega
      rw [List.getElem_append_left hil]
      have hbj : (bs ++ [Block.mk pos size rot])[j] = Block.mk pos size rot := by
        subst hje
        rw [List.getElem_append_right (le_refl _)]
        simp
      rw [hbj]
      have hchk := getBlockPosition_ok_check bs hm size flag rot rngU rngC pos hok
      unfold checkBlockCollision at hchk
      rw [List.any_eq_false] at hchk
      exact eq_false_of_ne_true (hchk bs[i] (List.getElem_mem hil))

/-- C1: in any scene built by successful planner placements (with the
quarter-turn yaw rotations the generator draws from), every pair of distinct
committed blocks passes the SAT test with no collision, in both argument
orders. -/
theorem committed_scene_no_interpenetration (bs : List Block) (hc : Committed bs)
    (hrot : ∀ b ∈ bs, IsYaw90 b.rot.m) :
    ∀ i j : ℕ, ∀ hi : i < bs.length, ∀ hj : j < bs.length, i ≠ j →
      separatingAxisTheorem (blockVerts bs[i]) (blockVerts bs[j]) = false := by
  intro i j hi hj hij
  rcases Nat.lt_or_ge i j with hlt | hge
  · have hsymm := sat_yaw90_symm_aux bs[i].position bs[i].size bs[j].position bs[j].size
      bs[i].rot.m bs[j].rot.m (hrot _ (List.getElem_mem hi)) (hrot _ (List.getElem_mem hj))
    unfold blockVerts
    rw [hsymm]
    exact committed_pairwise_ordered bs hc i j hi hj hlt
  · have hlt : j < i := by omega
    exact committed_pairwise_ordered bs hc j i hj hi hlt

set_option maxRecDepth 4000000 in
theorem committed_scene_no_interpenetration_witness :
    separatingAxisTheorem (blockVerts wBlock1) (blockVerts wBlock2) = false ∧
    separatingAxisTheorem (blockVerts wBlock2) (blockVerts wBlock1) = false := by
  have h1 : Committed [wBlock1] := by
    have hstep := Committed.place [] hm20 ⟨1 / 2, 1 / 2, 3 / 2⟩ true rotId (fun _ => 0)
      (fun _ => 0) ⟨0, 0, 0⟩ Committed.nil (by with_unfolding_all decide)
    exact hstep
  have h2 : Committed [wBlock1, wBlock2] := by
    have hstep := Committed.place [wBlock1] hm20 ⟨1 / 2, 1 / 2, 3 / 2⟩ true rotId wRngU2
      (fun _ => 0) ⟨9 / 10, 0, 0⟩ h1 (by with_unfolding_all decide)
    exact hstep
  have hrot : ∀ b ∈ [wBlock1, wBlock2], IsYaw90 b.rot.m := by
    intro b hb
    rcases List.mem_cons.mp hb with rfl | hb'
    · exact Or.inl rfl
    · rcases List.mem_cons.mp hb' with rfl | hb''
      · exact Or.inl rfl
      · cases hb''
  constructor
  · exact committed_scene_no_interpenetration [wBlock1, wBlock2] h2 hrot 0 1
      (by norm_num) (by norm_num) (by norm_num)
  · exact committed_scene_no_interpenetration [wBlock1, wBlock2] h2 hrot 1 0
      (by norm_num) (by norm_num) (by norm_num)

/-- A fold whose step preserves a predicate preserves it over any list. -/
theorem foldl_preserves {α β : Type} (P : β → Prop) (f : β → α → β)
    (hf : ∀ b a, P b → P (f b a)) :
    ∀ (l : List α) (b : β), P b → P (l.foldl f b) := by
  intro l
  induction l with
  | nil => intro b hb; exact hb
  | cons x xs ih => intro b hb; exact ih (f b x) (hf b x hb)

/-- The scan body at a clean state, with the two branch tests exposed. -/
theorem updStep_none (hm : Heightmap) (size : Vec3) (poly : List Point) (minSupp : ℚ)
    (h : Heightmap) (cell : Cell) :
    hm.updStep size poly minSupp (h, none) cell =
      (if hm.updCond poly minSupp cell.1 cell.2 then
        (if npOk cell.1 hm.gridX && npOk cell.2 hm.gridY then
          (h.write cell.1 cell.2 size.z (hm.cellSupp poly cell.1 cell.2), none)
        else (h, some .indexError))
      else (h, none)) := rfl

/-- The scan body carries a previous fault through unchanged. -/
theorem updStep_some (hm : Heightmap) (size : Vec3) (poly : List Point) (minSupp : ℚ)
    (h : Heightmap) (e : PyErr) (cell : Cell) :
    hm.updStep size poly minSupp (h, some e) cell = (h, some e) := rfl

/-- `update_height` ends with no error or an `IndexError`; it never raises a
`ValueError` itself. -/
theorem updateHeightRun_snd (hm : Heightmap) (position size : Vec3) (c s minSupp : ℚ) :
    (hm.updateHeightRun position size c s minSupp).2 = none ∨
    (hm.updateHeightRun position size c s minSupp).2 = some PyErr.indexError := by
  unfold Heightmap.updateHeightRun
  refine foldl_preserves (fun st : Heightmap × Option PyErr => st.2 = none ∨ st.2 = some PyErr.indexError) _ ?_ _ _
    (Or.inl rfl)
  intro b a hb
  rcases b with ⟨h, e⟩
  cases e with
  | none =>
    rw [updStep_none]
    by_cases h1 : hm.updCond (getPolygon position size c s) minSupp a.1 a.2 = true
    · rw [if_pos h1]
      by_cases h2 : (npOk a.1 hm.gridX && npOk a.2 hm.gridY) = true
      · rw [if_pos h2]
        exact Or.inl rfl
      · rw [if_neg h2]
        exact Or.inr rfl
    · rw [if_neg h1]
      exact Or.inl rfl
  | some e =>
    rw [updStep_some]
    rcases hb with hb | hb
    · exact absurd hb (by simp)
    · exact Or.inr hb

/-- On success, `placeLoop` returns a member of the candidate list that is
collision-free against every existing block, and the heightmap it returns is
the input heightmap updated by `update_height` for that candidate. -/
theorem placeLoop_ok_spec (existing : List Block) (size : Vec3) (rot : Rot) (rngC : ℕ → ℕ)
    (hm : Heightmap) :
    ∀ (fuel : ℕ) (cands : List Vec3) (k : ℕ) (p : Vec3) (hm' : Heightmap),
      placeLoop existing size rot rngC hm fuel cands k = .ok (p, hm') →
      p ∈ cands ∧ checkBlockCollision existing p size rot.m = false ∧
        hm.updateHeightRun p size rot.c rot.s (2 / 5) = (hm', none) := by
  intro fuel
  induction fuel with
  | zero =>
    intro cands k p hm' h
    cases cands with
    | nil => cases h
    | cons a t => cases h
  | succ f ih =>
    intro cands k p hm' h
    cases cands with
    | nil => cases h
    | cons a t =>
      rw [placeLoop] at h
      by_cases hc : checkBlockCollision existing
          ((a :: t).getD (rngC k % (a :: t).length) default) size rot.m
      · rw [if_pos hc] at h
        obtain ⟨hmem, hrest⟩ := ih _ _ _ _ h
        exact ⟨List.mem_of_mem_erase hmem, hrest⟩
      · rw [if_neg hc] at h
        rcases hru : hm.updateHeightRun ((a :: t).getD (rngC k % (a :: t).length) default)
            size rot.c rot.s (2 / 5) with ⟨hm2, e⟩
        rw [hru] at h
        cases e with
        | none =>
          injection h with h1
          injection h1 with h2 h3
          subst h2
          subst h3
          refine ⟨?_, eq_false_of_ne_true hc, hru⟩
          rw [List.getD_eq_getElem _ _ (Nat.mod_lt _ (by simp))]
          exact List.getElem_mem _
        | some e => cases h

/-- When `placeLoop` ends in a `ValueError` and the fuel covers the candidate
count, the heightmap it carries is the untouched input heightmap and every
candidate collides with an existing block. -/
theorem placeLoop_valueError_spec (existing : List Block) (size : Vec3) (rot : Rot)
    (rngC : ℕ → ℕ) (hm : Heightmap) :
    ∀ (fuel : ℕ) (cands : List Vec3) (k : ℕ) (hm' : Heightmap),
      cands.length ≤ fuel →
      placeLoop existing size rot rngC hm fuel cands k = .error (.valueError, hm') →
      hm' = hm ∧ ∀ p ∈ cands, checkBlockCollision existing p size rot.m = true := by
  intro fuel
  induction fuel with
  | zero =>
    intro cands k hm' hlen h
    cases cands with
    | nil =>
      rw [placeLoop] at h
      injection h with h1
      injection h1 with h2 h3
      exact ⟨h3.symm, by intro p hp; cases hp⟩
    | cons a t => simp at hlen
  | succ f ih =>
    intro cands k hm' hlen h
    cases cands with
    | nil =>
      rw [placeLoop] at h
      injection h with h1
      injection h1 with h2 h3
      exact ⟨h3.symm, by intro p hp; cases hp⟩
    | cons a t =>
      rw [placeLoop] at h
      by_cases hc : checkBlockCollision existing
          ((a :: t).getD (rngC k % (a :: t).length) default) size rot.m
      · rw [if_pos hc] at h
        have hmem : (a :: t).getD (rngC k % (a :: t).length) default ∈ a :: t := by
          rw [List.getD_eq_getElem _ _ (Nat.mod_lt _ (by simp))]
          exact List.getElem_mem _
        have hlen2 : ((a :: t).erase
            ((a :: t).getD (rngC k % (a :: t).length) default)).length ≤ f := by
          rw [List.length_erase_of_mem hmem]
          simp only [List.length_cons] at hlen ⊢
          omega
        obtain ⟨hhm, hall⟩ := ih _ _ _ hlen2 h
        refine ⟨hhm, ?_⟩
        intro p hp
        by_cases hpe : p = (a :: t).getD (rngC k % (a :: t).length) default
        · rw [hpe]; exact hc
        · exact hall p ((List.mem_erase_of_ne hpe).mpr hp)
      · rw [if_neg hc] at h
        rcases hru : hm.updateHeightRun ((a :: t).getD (rngC k % (a :: t).length) default)
            size rot.c rot.s (2 / 5) with ⟨hm2, e⟩
        rw [hru] at h
        cases e with
        | none => cases h
        | some e =>
          injection h with h1
          injection h1 with h2 h3
          subst h2
          have hsnd := updateHeightRun_snd hm
            ((a :: t).getD (rngC k % (a :: t).length) default) size rot.c rot.s (2 / 5)
          rw [hru] at hsnd
          rcases hsnd with h4 | h4
          · cases h4
          · simp at h4

/-- When the fuel covers the candidate count and every candidate collides,
`placeLoop` ends in a `ValueError` carrying the untouched heightmap. -/
theorem placeLoop_allCollide (existing : List Block) (size : Vec3) (rot : Rot)
    (rngC : ℕ → ℕ) (hm : Heightmap) :
    ∀ (fuel : ℕ) (cands : List Vec3) (k : ℕ),
      cands.length ≤ fuel →
      (∀ p ∈ cands, checkBlockCollision existing p size rot.m = true) →
      placeLoop existing size rot rngC hm fuel cands k = .error (.valueError, hm) := by
  intro fuel
  induction fuel with
  | zero =>
    intro cands k hlen hall
    cases cands with
    | nil => rw [placeLoop]
    | cons a t => simp at hlen
  | succ f ih =>
    intro cands k hlen hall
    cases cands with
    | nil => rw [placeLoop]
    | cons a t =>
      rw [placeLoop]
      have hmem : (a :: t).getD (rngC k % (a :: t).length) default ∈ a :: t := by
        rw [List.getD_eq_getElem _ _ (Nat.mod_lt _ (by simp))]
        exact List.getElem_mem _
      rw [if_pos (hall _ hmem)]
      apply ih
      · rw [List.length_erase_of_mem hmem]
        simp only [List.length_cons] at hlen ⊢
        omega
      · intro p hp
        exact hall p (List.mem_of_mem_erase hp)

/-- When `placeLoop` ends in an `IndexError`, some collision-free candidate was
drawn and `update_height` faulted on it, leaving the partially written
heightmap that the error carries. -/
theorem placeLoop_indexError_spec (existing : List Block) (size : Vec3) (rot : Rot)
    (rngC : ℕ → ℕ) (hm : Heightmap) :
    ∀ (fuel : ℕ) (cands : List Vec3) (k : ℕ) (hm' : Heightmap),
      placeLoop existing size rot rngC hm fuel cands k = .error (.indexError, hm') →
      ∃ p ∈ cands, checkBlockCollision existing p size rot.m = false ∧
        hm.updateHeightRun p size rot.c rot.s (2 / 5) = (hm', some .indexError) := by
  intro fuel
  induction fuel with
  | zero =>
    intro cands k hm' h
    cases cands with
    | nil =>
      rw [placeLoop] at h
      injection h with h1
      injection h1 with h2 h3
      cases h2
    | cons a t =>
      rw [placeLoop] at h
      injection h with h1
      injection h1 with h2 h3
      cases h2
  | succ f ih =>
    intro cands k hm' h
    cases cands with
    | nil =>
      rw [placeLoop] at h
      injection h with h1
      injection h1 with h2 h3
      cases h2
    | cons a t =>
      rw [placeLoop] at h
      by_cases hc : checkBlockCollision existing
          ((a :: t).getD (rngC k % (a :: t).length) default) size rot.m
      · rw [if_pos hc] at h
        obtain ⟨p, hp, hrest⟩ := ih _ _ _ h
        exact ⟨p, List.mem_of_mem_erase hp, hrest⟩
      · rw [if_neg hc] at h
        rcases hru : hm.updateHeightRun ((a :: t).getD (rngC k % (a :: t).length) default)
            size rot.c rot.s (2 / 5) with ⟨hm2, e⟩
        rw [hru] at h
        cases e with
        | none => cases h
        | some e =>
          injection h with h1
          injection h1 with h2 h3
          subst h2
          subst h3
          refine ⟨(a :: t).getD (rngC k % (a :: t).length) default, ?_,
            eq_false_of_ne_true hc, hru⟩
          rw [List.getD_eq_getElem _ _ (Nat.mod_lt _ (by simp))]
          exact List.getElem_mem _

/-- C2 (amended): `get_block_position` fails with a `ValueError`, leaving the
heightmap unchanged, exactly when the candidate list is empty or every
candidate collides with an existing block; on success it returns a candidate
that is collision-free against every existing block, with the heightmap
updated for it by `update_height` before returning; but it can also fail with
an `IndexError` raised inside `update_height` on a collision-free candidate,
and that failure leaves the heightmap partially written. -/
theorem get_block_position_spec (existing : List Block) (hm : Heightmap) (size : Vec3)
    (flag : Bool) (rot : Rot) (rngU : ℕ → ℚ) (rngC : ℕ → ℕ) :
    (getBlockPosition existing hm size flag rot rngU rngC = .error (.valueError, hm) ↔
      ∀ p ∈ hm.getValidPositions size flag rngU,
        checkBlockCollision existing p size rot.m = true) ∧
    (∀ p hm', getBlockPosition existing hm size flag rot rngU rngC = .ok (p, hm') →
      p ∈ hm.getValidPositions size flag rngU ∧
        checkBlockCollision existing p size rot.m = false ∧
        hm.updateHeightRun p size rot.c rot.s (2 / 5) = (hm', none)) ∧
    (∀ hm', getBlockPosition existing hm size flag rot rngU rngC = .error (.valueError, hm') →
      hm' = hm) ∧
    (∀ hm', getBlockPosition existing hm size flag rot rngU rngC = .error (.indexError, hm') →
      ∃ p ∈ hm.getValidPositions size flag rngU,
        checkBlockCollision existing p size rot.m = false ∧
        hm.updateHeightRun p size rot.c rot.s (2 / 5) = (hm', some .indexError)) := by
  simp only [getBlockPosition]
  refine ⟨⟨?_, ?_⟩, ?_, ?_, ?_⟩
  · intro h
    exact (placeLoop_valueError_spec existing size rot rngC hm _ _ _ _ (le_refl _) h).2
  · intro h
    exact placeLoop_allCollide existing size rot rngC hm _ _ _ (le_refl _) h
  · intro p hm' h
    exact placeLoop_ok_spec existing size rot rngC hm _ _ _ _ _ h
  · intro hm' h
    exact (placeLoop_valueError_spec existing size rot rngC hm _ _ _ _ (le_refl _) h).1
  · intro hm' h
    exact placeLoop_indexError_spec existing size rot rngC hm _ _ _ _ h

set_option maxRecDepth 4000000 in
/-- C2 counterexample: the border placement call fails with an `IndexError`
although its candidate list is nonempty and its sole candidate passes the
collision check, and the failure leaves the heightmap already mutated — the
failure modes of `get_block_position` are not exhausted by empty or
all-colliding candidates, and a failure does not leave the heightmap
unchanged. -/
theorem get_block_position_fault_mutates :
    errOf edgePlace = some PyErr.indexError ∧
    (edgeHm.getValidPositions ⟨1, 1, 1⟩ false edgeRngU).length = 1 ∧
    (∀ p ∈ edgeHm.getValidPositions ⟨1, 1, 1⟩ false edgeRngU,
      checkBlockCollision [] p ⟨1, 1, 1⟩ rotId.m = false) ∧
    (hmOf edgePlace).height 39 19 = 2 ∧ edgeHm.height 39 19 = 1 := by
  with_unfolding_all decide

/-- A fold whose step preserves a predicate for the elements of the list
preserves it over that list. -/
theorem foldl_preserves_mem {α β : Type} (P : β → Prop) (f : β → α → β) :
    ∀ (l : List α) (b : β), (∀ b' a, a ∈ l → P b' → P (f b' a)) → P b → P (l.foldl f b) := by
  intro l
  induction l with
  | nil => intro b _ hb; exact hb
  | cons x xs ih =>
    intro b hf hb
    exact ih (f b x) (fun b' a ha => hf b' a (List.mem_cons_of_mem x ha))
      (hf b x (List.mem_cons_self x xs) hb)

/-- A lower bound of every entry bounds `listMinQ` from below. -/
theorem le_listMinQ (l : List ℚ) (a : ℚ) (hne : l ≠ []) (h : ∀ x ∈ l, a ≤ x) :
    a ≤ listMinQ l := by
  unfold listMinQ
  refine foldl_preserves_mem (fun m => a ≤ m) min l (l.headD 0) ?_ ?_
  · intro b' x hx hb'
    exact le_min hb' (h x hx)
  · cases l with
    | nil => exact absurd rfl hne
    | cons y t => exact h y (List.mem_cons_self y t)

/-- An upper bound of every entry bounds `listMaxQ` from above. -/
theorem listMaxQ_le (l : List ℚ) (a : ℚ) (hne : l ≠ []) (h : ∀ x ∈ l, x ≤ a) :
    listMaxQ l ≤ a := by
  unfold listMaxQ
  refine foldl_preserves_mem (fun m => m ≤ a) max l (l.headD 0) ?_ ?_
  · intro b' x hx hb'
    exact max_le hb' (h x hx)
  · cases l with
    | nil => exact absurd rfl hne
    | cons y t => exact h y (List.mem_cons_self y t)

/-- A max fold only grows from its seed. -/
theorem foldl_max_ge_init (l : List ℚ) : ∀ init : ℚ, init ≤ l.foldl max init := by
  induction l with
  | nil => intro init; exact le_refl _
  | cons y t ih => intro init; exact le_trans (le_max_left init y) (ih (max init y))

/-- A max fold dominates every list entry. -/
theorem foldl_max_ge_mem (l : List ℚ) (x : ℚ) :
    ∀ init : ℚ, x ∈ l → x ≤ l.foldl max init := by
  induction l with
  | nil => intro init hx; cases hx
  | cons y t ih =>
    intro init hx
    rcases List.mem_cons.mp hx with rfl | hx'
    · exact le_trans (le_max_right init x) (foldl_max_ge_init t (max init x))
    · exact ih (max init y) hx'

/-- Every entry bounds `listMaxQ` from below. -/
theorem le_listMaxQ_of_mem (l : List ℚ) (x : ℚ) (hx : x ∈ l) : x ≤ listMaxQ l :=
  foldl_max_ge_mem l x (l.headD 0) hx

/-- The truncation of a nonnegative rational is nonnegative. -/
theorem pyInt_nonneg {q : ℚ} (h : 0 ≤ q) : 0 ≤ pyInt q := by
  rw [pyInt_of_nonneg h]
  exact Int.le_floor.mpr (by exact_mod_cast h)

/-- Truncation is monotone on nonnegative arguments. -/
theorem pyInt_mono_nonneg {a b : ℚ} (ha : 0 ≤ a) (hab : a ≤ b) : pyInt a ≤ pyInt b := by
  rw [pyInt_of_nonneg ha, pyInt_of_nonneg (le_trans ha hab)]
  exact Int.floor_le_floor hab

/-- Truncation fixes the integers. -/
theorem pyInt_intCast (z : ℤ) : pyInt (z : ℚ) = z := by
  unfold pyInt
  split
  · rw [ratFloor_intFloor, Int.floor_intCast]
  · rw [show -(z : ℚ) = ((-z : ℤ) : ℚ) by push_cast; ring, ratFloor_intFloor,
      Int.floor_intCast]
    omega

/-- Membership in the inclusive integer range. -/
theorem mem_intRange {x lo hi : ℤ} : x ∈ intRange lo hi ↔ lo ≤ x ∧ x ≤ hi := by
  unfold intRange
  simp only [List.mem_map, List.mem_range]
  constructor
  · rintro ⟨k, hk, rfl⟩
    omega
  · intro h
    exact ⟨(x - lo).toNat, by omega, by omega⟩

/-- The inclusive integer range has no duplicates. -/
theorem nodup_intRange (lo hi : ℤ) : (intRange lo hi).Nodup := by
  unfold intRange
  refine List.Nodup.map ?_ (List.nodup_range _)
  intro a b hab
  have h2 : lo + (a : ℤ) = lo + (b : ℤ) := hab
  omega

/-- The scan range in its bounds-explicit form. -/
theorem updRange_eq (hm : Heightmap) (poly : List Point) :
    hm.updRange poly =
      (intRange (hm.worldToGrid (polygonBounds poly).1 (polygonBounds poly).2.1).1
          (hm.worldToGrid (polygonBounds poly).2.2.1 (polygonBounds poly).2.2.2).1).flatMap
        fun x =>
          (intRange (hm.worldToGrid (polygonBounds poly).1 (polygonBounds poly).2.1).2
              (hm.worldToGrid (polygonBounds poly).2.2.1 (polygonBounds poly).2.2.2).2).map
            fun y => ((x, y) : Cell) := rfl

/-- Membership in the scan range is the pair of index-interval constraints. -/
theorem mem_updRange {hm : Heightmap} {poly : List Point} {cl : Cell} :
    cl ∈ hm.updRange poly ↔
      ((hm.worldToGrid (polygonBounds poly).1 (polygonBounds poly).2.1).1 ≤ cl.1 ∧
        cl.1 ≤ (hm.worldToGrid (polygonBounds poly).2.2.1 (polygonBounds poly).2.2.2).1) ∧
      ((hm.worldToGrid (polygonBounds poly).1 (polygonBounds poly).2.1).2 ≤ cl.2 ∧
        cl.2 ≤ (hm.worldToGrid (polygonBounds poly).2.2.1 (polygonBounds poly).2.2.2).2) := by
  rw [updRange_eq]
  simp only [List.mem_flatMap, List.mem_map, mem_intRange]
  constructor
  · rintro ⟨x, hx, y, hy, rfl⟩
    exact ⟨hx, hy⟩
  · rintro ⟨hx, hy⟩
    exact ⟨cl.1, hx, cl.2, hy, rfl⟩

/-- A rectangular index product scanned row by row has no duplicates. -/
theorem nodup_pairList (l1 l2 : List ℤ) (h1 : l1.Nodup) (h2 : l2.Nodup) :
    (l1.flatMap fun x => l2.map fun y => ((x, y) : Cell)).Nodup := by
  induction l1 with
  | nil => exact List.nodup_nil
  | cons x xs ih =>
    rw [List.flatMap_cons, List.nodup_append]
    refine ⟨h2.map ?_, ih (List.Nodup.of_cons h1), ?_⟩
    · intro a b hab
      exact congrArg Prod.snd hab
    · intro a ha hb
      simp only [List.mem_map] at ha
      obtain ⟨y, hy, rfl⟩ := ha
      simp only [List.mem_flatMap, List.mem_map] at hb
      obtain ⟨x', hx', y', hy', heq⟩ := hb
      have e1 : x' = x := congrArg Prod.fst heq
      subst e1
      exact (List.nodup_cons.mp h1).1 hx'

/-- The scan range has no duplicates. -/
theorem nodup_updRange (hm : Heightmap) (poly : List Point) : (hm.updRange poly).Nodup := by
  rw [updRange_eq]
  exact nodup_pairList _ _ (nodup_intRange _ _) (nodup_intRange _ _)

/-- A read of the cyclic chain is one of its points. -/
theorem getD_mem_of_lt {pts : List Point} {i : ℕ} (h : i < pts.length) :
    pts.getD i (0, 0) ∈ pts := by
  rw [List.getD_eq_getElem _ _ h]
  exact List.getElem_mem _

/-- The value of an affine functional at a clip intersection point. -/
theorem eval_segInter_affine (φ : HalfPlane) (cur nxt : Point) (dc dn : ℚ) :
    φ.eval (segInter cur nxt dc dn) =
      φ.eval cur + dc / (dc - dn) * (φ.eval nxt - φ.eval cur) := by
  simp only [segInter, HalfPlane.eval]
  ring

/-- Clipping a chain lying in the closed negative side of a half plane leaves
only points on its boundary line. -/
theorem clipStage_all_boundary (pts : List Point) (hp : HalfPlane)
    (hall : ∀ p ∈ pts, hp.eval p ≤ 0) :
    ∀ q ∈ clipStage pts hp, hp.eval q = 0 := by
  intro q hq
  simp only [clipStage, List.mem_flatMap, List.mem_range] at hq
  obtain ⟨i, hi, hq⟩ := hq
  have hdc : hp.eval (pts.getD i (0, 0)) ≤ 0 := hall _ (getD_mem_of_lt hi)
  have hdn : hp.eval (pts.getD ((i + 1) % pts.length) (0, 0)) ≤ 0 :=
    hall _ (getD_mem_of_lt (Nat.mod_lt _ (by omega)))
  by_cases h1 : 0 ≤ hp.eval (pts.getD ((i + 1) % pts.length) (0, 0))
  · rw [if_pos h1] at hq
    have hdn0 : hp.eval (pts.getD ((i + 1) % pts.length) (0, 0)) = 0 := le_antisymm hdn h1
    by_cases h2 : hp.eval (pts.getD i (0, 0)) < 0
    · rw [if_pos h2] at hq
      simp only [List.cons_append, List.nil_append, List.mem_cons, List.not_mem_nil,
        or_false] at hq
      rcases hq with rfl | rfl
      · rw [eval_segInter_affine, hdn0, sub_zero, div_self (ne_of_lt h2)]
        ring
      · exact hdn0
    · rw [if_neg h2] at hq
      simp only [List.nil_append, List.mem_cons, List.not_mem_nil, or_false] at hq
      subst hq
      exact hdn0
  · rw [if_neg h1] at hq
    by_cases h2 : 0 ≤ hp.eval (pts.getD i (0, 0))
    · rw [if_pos h2] at hq
      have hdc0 : hp.eval (pts.getD i (0, 0)) = 0 := le_antisymm hdc h2
      simp only [List.mem_cons, List.not_mem_nil, or_false] at hq
      subst hq
      rw [eval_segInter_affine, hdc0]
      simp
    · rw [if_neg h2] at hq
      cases hq

/-- A clip stage keeps a chain on the zero line of any affine functional that
vanishes on the chain. -/
theorem clipStage_preserves_zero (pts : List Point) (hp φ : HalfPlane)
    (hall : ∀ p ∈ pts, φ.eval p = 0) :
    ∀ q ∈ clipStage pts hp, φ.eval q = 0 := by
  intro q hq
  simp only [clipStage, List.mem_flatMap, List.mem_range] at hq
  obtain ⟨i, hi, hq⟩ := hq
  have hc : φ.eval (pts.getD i (0, 0)) = 0 := hall _ (getD_mem_of_lt hi)
  have hn : φ.eval (pts.getD ((i + 1) % pts.length) (0, 0)) = 0 :=
    hall _ (getD_mem_of_lt (Nat.mod_lt _ (by omega)))
  have hseg : φ.eval (segInter (pts.getD i (0, 0))
      (pts.getD ((i + 1) % pts.length) (0, 0))
      (hp.eval (pts.getD i (0, 0)))
      (hp.eval (pts.getD ((i + 1) % pts.length) (0, 0)))) = 0 := by
    rw [eval_segInter_affine, hc, hn]
    ring
  by_cases h1 : 0 ≤ hp.eval (pts.getD ((i + 1) % pts.length) (0, 0))
  · rw [if_pos h1] at hq
    by_cases h2 : hp.eval (pts.getD i (0, 0)) < 0
    · rw [if_pos h2] at hq
      simp only [List.cons_append, List.nil_append, List.mem_cons, List.not_mem_nil,
        or_false] at hq
      rcases hq with rfl | rfl
      · exact hseg
      · exact hn
    · rw [if_neg h2] at hq
      simp only [List.nil_append, List.mem_cons, List.not_mem_nil, or_false] at hq
      subst hq
      exact hn
  · rw [if_neg h1] at hq
    by_cases h2 : 0 ≤ hp.eval (pts.getD i (0, 0))
    · rw [if_pos h2] at hq
      simp only [List.mem_cons, List.not_mem_nil, or_false] at hq
      subst hq
      exact hseg
    · rw [if_neg h2] at hq
      cases hq

/-- A clip stage keeps a chain inside any closed affine half space containing
it: each emitted intersection point is a convex combination of chain points. -/
theorem clipStage_preserves_nonpos (pts : List Point) (hp φ : HalfPlane)
    (hall : ∀ p ∈ pts, φ.eval p ≤ 0) :
    ∀ q ∈ clipStage pts hp, φ.eval q ≤ 0 := by
  intro q hq
  simp only [clipStage, List.mem_flatMap, List.mem_range] at hq
  obtain ⟨i, hi, hq⟩ := hq
  have hc : φ.eval (pts.getD i (0, 0)) ≤ 0 := hall _ (getD_mem_of_lt hi)
  have hn : φ.eval (pts.getD ((i + 1) % pts.length) (0, 0)) ≤ 0 :=
    hall _ (getD_mem_of_lt (Nat.mod_lt _ (by omega)))
  by_cases h1 : 0 ≤ hp.eval (pts.getD ((i + 1) % pts.length) (0, 0))
  · rw [if_pos h1] at hq
    by_cases h2 : hp.eval (pts.getD i (0, 0)) < 0
    · rw [if_pos h2] at hq
      simp only [List.cons_append, List.nil_append, List.mem_cons, List.not_mem_nil,
        or_false] at hq
      rcases hq with rfl | rfl
      · rw [eval_segInter_affine]
        have hden : (0:ℚ) < hp.eval (pts.getD ((i + 1) % pts.length) (0, 0)) -
            hp.eval (pts.getD i (0, 0)) := by linarith
        have ht : hp.eval (pts.getD i (0, 0)) /
            (hp.eval (pts.getD i (0, 0)) -
              hp.eval (pts.getD ((i + 1) % pts.length) (0, 0))) =
            (-hp.eval (pts.getD i (0, 0))) /
            (hp.eval (pts.getD ((i + 1) % pts.length) (0, 0)) -
              hp.eval (pts.getD i (0, 0))) := by
          rw [div_eq_div_iff (ne_of_lt (by linarith)) (ne_of_gt hden)]
          ring
        rw [ht]
        have ht0 : 0 ≤ (-hp.eval (pts.getD i (0, 0))) /
            (hp.eval (pts.getD ((i + 1) % pts.length) (0, 0)) -
              hp.eval (pts.getD i (0, 0))) :=
          div_nonneg (by linarith) (le_of_lt hden)
        have ht1 : (-hp.eval (pts.getD i (0, 0))) /
            (hp.eval (pts.getD ((i + 1) % pts.length) (0, 0)) -
              hp.eval (pts.getD i (0, 0))) ≤ 1 := by
          rw [div_le_one hden]
          linarith
        nlinarith [mul_nonneg (by linarith : (0:ℚ) ≤ 1 -
            (-hp.eval (pts.getD i (0, 0))) /
            (hp.eval (pts.getD ((i + 1) % pts.length) (0, 0)) -
              hp.eval (pts.getD i (0, 0))))
            (by linarith : (0:ℚ) ≤ -φ.eval (pts.getD i (0, 0))),
          mul_nonneg ht0
            (by linarith : (0:ℚ) ≤ -φ.eval (pts.getD ((i + 1) % pts.length) (0, 0)))]
      · exact hn
    · rw [if_neg h2] at hq
      simp only [List.nil_append, List.mem_cons, List.not_mem_nil, or_false] at hq
      subst hq
      exact hn
  · rw [if_neg h1] at hq
    push_neg at h1
    by_cases h2 : 0 ≤ hp.eval (pts.getD i (0, 0))
    · rw [if_pos h2] at hq
      simp only [List.mem_cons, List.not_mem_nil, or_false] at hq
      subst hq
      rw [eval_segInter_affine]
      have hden : (0:ℚ) < hp.eval (pts.getD i (0, 0)) -
          hp.eval (pts.getD ((i + 1) % pts.length) (0, 0)) := by linarith
      have ht0 : 0 ≤ hp.eval (pts.getD i (0, 0)) /
          (hp.eval (pts.getD i (0, 0)) -
            hp.eval (pts.getD ((i + 1) % pts.length) (0, 0))) :=
        div_nonneg h2 (le_of_lt hden)
      have ht1 : hp.eval (pts.getD i (0, 0)) /
          (hp.eval (pts.getD i (0, 0)) -
            hp.eval (pts.getD ((i + 1) % pts.length) (0, 0))) ≤ 1 := by
        rw [div_le_one hden]
        linarith
      nlinarith [mul_nonneg (by linarith : (0:ℚ) ≤ 1 -
          hp.eval (pts.getD i (0, 0)) /
          (hp.eval (pts.getD i (0, 0)) -
            hp.eval (pts.getD ((i + 1) % pts.length) (0, 0))))
          (by linarith : (0:ℚ) ≤ -φ.eval (pts.getD i (0, 0))),
        mul_nonneg ht0
          (by linarith : (0:ℚ) ≤ -φ.eval (pts.getD ((i + 1) % pts.length) (0, 0)))]
    · rw [if_neg h2] at hq
      cases hq

/-- The shoelace summand over chains of constant first coordinate. -/
theorem zipWith_shoelace_fst (v : ℚ) :
    ∀ (l1 l2 : List Point), (∀ p ∈ l1, p.1 = v) → (∀ p ∈ l2, p.1 = v) →
      List.zipWith (fun p q => p.1 * q.2 - q.1 * p.2) l1 l2 =
      List.zipWith (fun p q : Point => v * q.2 - v * p.2) l1 l2 := by
  intro l1
  induction l1 with
  | nil => intro l2 _ _; rfl
  | cons a t ih =>
    intro l2 h1 h2
    cases l2 with
    | nil => rfl
    | cons b t2 =>
      simp only [List.zipWith_cons_cons]
      rw [h1 a (List.mem_cons_self a t), h2 b (List.mem_cons_self b t2),
        ih t2 (fun p hp => h1 p (List.mem_cons_of_mem a hp))
          (fun p hp => h2 p (List.mem_cons_of_mem b hp))]

/-- The shoelace summand over chains of constant second coordinate. -/
theorem zipWith_shoelace_snd (v : ℚ) :
    ∀ (l1 l2 : List Point), (∀ p ∈ l1, p.2 = v) → (∀ p ∈ l2, p.2 = v) →
      List.zipWith (fun p q => p.1 * q.2 - q.1 * p.2) l1 l2 =
      List.zipWith (fun p q : Point => p.1 * v - q.1 * v) l1 l2 := by
  intro l1
  induction l1 with
  | nil => intro l2 _ _; rfl
  | cons a t ih =>
    intro l2 h1 h2
    cases l2 with
    | nil => rfl
    | cons b t2 =>
      simp only [List.zipWith_cons_cons]
      rw [h1 a (List.mem_cons_self a t), h2 b (List.mem_cons_self b t2),
        ih t2 (fun p hp => h1 p (List.mem_cons_of_mem a hp))
          (fun p hp => h2 p (List.mem_cons_of_mem b hp))]

/-- Summing pointwise differences over two aligned chains. -/
theorem zipWith_sub_sum (g : Point → ℚ) :
    ∀ (l1 l2 : List Point), l1.length = l2.length →
      (List.zipWith (fun p q => g q - g p) l1 l2).sum =
        (l2.map g).sum - (l1.map g).sum := by
  intro l1
  induction l1 with
  | nil =>
    intro l2 hl
    cases l2 with
    | nil => simp
    | cons b t2 => simp at hl
  | cons a t ih =>
    intro l2 hl
    cases l2 with
    | nil => simp at hl
    | cons b t2 =>
      simp only [List.zipWith_cons_cons, List.sum_cons, List.map_cons]
      rw [ih t2 (by simpa using hl)]
      ring

/-- Summing reversed pointwise differences over two aligned chains. -/
theorem zipWith_sub_sum_rev (g : Point → ℚ) :
    ∀ (l1 l2 : List Point), l1.length = l2.length →
      (List.zipWith (fun p q => g p - g q) l1 l2).sum =
        (l1.map g).sum - (l2.map g).sum := by
  intro l1
  induction l1 with
  | nil =>
    intro l2 hl
    cases l2 with
    | nil => simp
    | cons b t2 => simp at hl
  | cons a t ih =>
    intro l2 hl
    cases l2 with
    | nil => simp at hl
    | cons b t2 =>
      simp only [List.zipWith_cons_cons, List.sum_cons, List.map_cons]
      rw [ih t2 (by simpa using hl)]
      ring

/-- Rotating a list by one keeps its sum. -/
theorem sum_rotate_one (l : List ℚ) : (l.rotate 1).sum = l.sum := by
  cases l with
  | nil => rfl
  | cons a t =>
    rw [List.rotate_cons_succ, List.rotate_zero]
    simp [List.sum_append, add_comm]

/-- A chain of constant first coordinate has zero shoelace sum. -/
theorem shoelace_const_fst (pts : List Point) (v : ℚ) (h : ∀ p ∈ pts, p.1 = v) :
    shoelace pts = 0 := by
  unfold shoelace
  have hrot : ∀ p ∈ pts.rotate 1, p.1 = v := fun p hp => h p (List.mem_rotate.mp hp)
  have h1 := zipWith_shoelace_fst v pts (pts.rotate 1) h hrot
  have h2 := zipWith_sub_sum (fun r : Point => v * r.2) pts (pts.rotate 1)
    (by rw [List.length_rotate])
  have h3 : List.zipWith (fun p q : Point => v * q.2 - v * p.2) pts (pts.rotate 1) =
      List.zipWith (fun p q : Point => (fun r : Point => v * r.2) q -
        (fun r : Point => v * r.2) p) pts (pts.rotate 1) := rfl
  rw [h1, h3, h2, List.map_rotate, sum_rotate_one, sub_self]

/-- A chain of constant second coordinate has zero shoelace sum. -/
theorem shoelace_const_snd (pts : List Point) (v : ℚ) (h : ∀ p ∈ pts, p.2 = v) :
    shoelace pts = 0 := by
  unfold shoelace
  have hrot : ∀ p ∈ pts.rotate 1, p.2 = v := fun p hp => h p (List.mem_rotate.mp hp)
  have h1 := zipWith_shoelace_snd v pts (pts.rotate 1) h hrot
  have h2 := zipWith_sub_sum_rev (fun r : Point => r.1 * v) pts (pts.rotate 1)
    (by rw [List.length_rotate])
  have h3 : List.zipWith (fun p q : Point => p.1 * v - q.1 * v) pts (pts.rotate 1) =
      List.zipWith (fun p q : Point => (fun r : Point => r.1 * v) p -
        (fun r : Point => r.1 * v) q) pts (pts.rotate 1) := rfl
  rw [h1, h3, h2, List.map_rotate, sum_rotate_one, sub_self]

/-- A footprint that stays left of a cell's low x edge clips to zero area
inside the cell. -/
theorem cellClip_area_zero_left (poly : List Point) (xmin ymin xmax ymax : ℚ)
    (h : ∀ p ∈ poly, p.1 ≤ xmin) :
    polyArea (cellClip poly xmin ymin xmax ymax) = 0 := by
  unfold cellClip polyArea
  have s1 : ∀ q ∈ clipStage poly ⟨1, 0, -xmin⟩, (HalfPlane.mk 1 0 (-xmin)).eval q = 0 := by
    apply clipStage_all_boundary
    intro p hp
    simp only [HalfPlane.eval]
    linarith [h p hp]
  have s2 := clipStage_preserves_zero _ ⟨-1, 0, xmax⟩ ⟨1, 0, -xmin⟩ s1
  have s3 := clipStage_preserves_zero _ ⟨0, 1, -ymin⟩ ⟨1, 0, -xmin⟩ s2
  have s4 := clipStage_preserves_zero _ ⟨0, -1, ymax⟩ ⟨1, 0, -xmin⟩ s3
  have hfst : ∀ q ∈ clipStage (clipStage (clipStage (clipStage poly ⟨1, 0, -xmin⟩)
      ⟨-1, 0, xmax⟩) ⟨0, 1, -ymin⟩) ⟨0, -1, ymax⟩, q.1 = xmin := by
    intro q hq
    have h4 := s4 q hq
    simp only [HalfPlane.eval] at h4
    linarith
  rw [shoelace_const_fst _ xmin hfst]
  simp

/-- A footprint that stays below a cell's low y edge clips to zero area
inside the cell. -/
theorem cellClip_area_zero_low (poly : List Point) (xmin ymin xmax ymax : ℚ)
    (h : ∀ p ∈ poly, p.2 ≤ ymin) :
    polyArea (cellClip poly xmin ymin xmax ymax) = 0 := by
  unfold cellClip polyArea
  have s1 : ∀ q ∈ clipStage poly ⟨1, 0, -xmin⟩, (HalfPlane.mk 0 1 (-ymin)).eval q ≤ 0 := by
    apply clipStage_preserves_nonpos
    intro p hp
    simp only [HalfPlane.eval]
    linarith [h p hp]
  have s2 := clipStage_preserves_nonpos _ ⟨-1, 0, xmax⟩ ⟨0, 1, -ymin⟩ s1
  have s3 := clipStage_all_boundary _ ⟨0, 1, -ymin⟩ s2
  have s4 := clipStage_preserves_zero _ ⟨0, -1, ymax⟩ ⟨0, 1, -ymin⟩ s3
  have hsnd : ∀ q ∈ clipStage (clipStage (clipStage (clipStage poly ⟨1, 0, -xmin⟩)
      ⟨-1, 0, xmax⟩) ⟨0, 1, -ymin⟩) ⟨0, -1, ymax⟩, q.2 = ymin := by
    intro q hq
    have h4 := s4 q hq
    simp only [HalfPlane.eval] at h4
    linarith
  rw [shoelace_const_snd _ ymin hsnd]
  simp

/-- The height entry of a committed write. -/
theorem write_height (h : Heightmap) (x y : ℤ) (dz r : ℚ) (i j : ℤ) :
    (h.write x y dz r).height i j =
      (if i = wrapIdx x h.gridX ∧ j = wrapIdx y h.gridY then h.height i j + dz
       else h.height i j) := rfl

/-- The occupancy entry of a committed write. -/
theorem write_occupancy (h : Heightmap) (x y : ℤ) (dz r : ℚ) (i j : ℤ) :
    (h.write x y dz r).occupancy i j =
      (if i = wrapIdx x h.gridX ∧ j = wrapIdx y h.gridY then r
       else h.occupancy i j) := rfl

/-- A write keeps the x grid extent. -/
theorem write_gridX (h : Heightmap) (x y : ℤ) (dz r : ℚ) :
    (h.write x y dz r).gridX = h.gridX := rfl

/-- A write keeps the y grid extent. -/
theorem write_gridY (h : Heightmap) (x y : ℤ) (dz r : ℚ) :
    (h.write x y dz r).gridY = h.gridY := rfl

/-- The scan faults nowhere when every cell it would write is admissible. -/
theorem updFold_noError (hm : Heightmap) (poly : List Point) (size : Vec3) (minSupp : ℚ)
    (l : List Cell)
    (hok : ∀ cl ∈ l, hm.updCond poly minSupp cl.1 cl.2 = true →
      (npOk cl.1 hm.gridX && npOk cl.2 hm.gridY) = true) :
    ∀ st : Heightmap × Option PyErr, st.2 = none →
      (l.foldl (hm.updStep size poly minSupp) st).2 = none := by
  intro st hst
  refine foldl_preserves_mem (fun st' : Heightmap × Option PyErr => st'.2 = none)
    (hm.updStep size poly minSupp) l st ?_ hst
  intro b' a ha hb'
  rcases b' with ⟨h, e⟩
  cases e with
  | none =>
    rw [updStep_none]
    by_cases h1 : hm.updCond poly minSupp a.1 a.2 = true
    · rw [if_pos h1, if_pos (hok a ha h1)]
    · rw [if_neg h1]
  | some e => cases hb'

/-- Entries onto which no passing range cell wraps are untouched by the
scan. -/
theorem updFold_frame (hm : Heightmap) (poly : List Point) (size : Vec3) (minSupp : ℚ)
    (l : List Cell) (i j : ℤ)
    (hnw : ∀ cl ∈ l, hm.updCond poly minSupp cl.1 cl.2 = true →
      ¬(wrapIdx cl.1 hm.gridX = i ∧ wrapIdx cl.2 hm.gridY = j)) :
    ∀ st : Heightmap × Option PyErr,
      st.1.gridX = hm.gridX → st.1.gridY = hm.gridY →
      (l.foldl (hm.updStep size poly minSupp) st).1.height i j = st.1.height i j ∧
      (l.foldl (hm.updStep size poly minSupp) st).1.occupancy i j = st.1.occupancy i j := by
  intro st hgx hgy
  have main : (fun st' : Heightmap × Option PyErr =>
      st'.1.height i j = st.1.height i j ∧ st'.1.occupancy i j = st.1.occupancy i j ∧
      st'.1.gridX = hm.gridX ∧ st'.1.gridY = hm.gridY)
      (l.foldl (hm.updStep size poly minSupp) st) := by
    refine foldl_preserves_mem (fun st' : Heightmap × Option PyErr =>
      st'.1.height i j = st.1.height i j ∧ st'.1.occupancy i j = st.1.occupancy i j ∧
      st'.1.gridX = hm.gridX ∧ st'.1.gridY = hm.gridY)
      (hm.updStep size poly minSupp) l st ?_ ⟨rfl, rfl, hgx, hgy⟩
    intro b' a ha hb'
    rcases b' with ⟨h, e⟩
    dsimp only at hb'
    obtain ⟨hh, ho, hbx, hby⟩ := hb'
    cases e with
    | none =>
      rw [updStep_none]
      by_cases h1 : hm.updCond poly minSupp a.1 a.2 = true
      · rw [if_pos h1]
        by_cases h2 : (npOk a.1 hm.gridX && npOk a.2 hm.gridY) = true
        · rw [if_pos h2]
          have hne : ¬(i = wrapIdx a.1 h.gridX ∧ j = wrapIdx a.2 h.gridY) := by
            intro hcon
            refine hnw a ha h1 ⟨?_, ?_⟩
            · rw [← hbx]
              exact hcon.1.symm
            · rw [← hby]
              exact hcon.2.symm
          refine ⟨?_, ?_, ?_, ?_⟩
          · show (h.write a.1 a.2 size.z (hm.cellSupp poly a.1 a.2)).height i j =
              st.1.height i j
            rw [write_height, if_neg hne]
            exact hh
          · show (h.write a.1 a.2 size.z (hm.cellSupp poly a.1 a.2)).occupancy i j =
              st.1.occupancy i j
            rw [write_occupancy, if_neg hne]
            exact ho
          · show (h.write a.1 a.2 size.z (hm.cellSupp poly a.1 a.2)).gridX = hm.gridX
            rw [write_gridX]
            exact hbx
          · show (h.write a.1 a.2 size.z (hm.cellSupp poly a.1 a.2)).gridY = hm.gridY
            rw [write_gridY]
            exact hby
        · rw [if_neg h2]
          exact ⟨hh, ho, hbx, hby⟩
      · rw [if_neg h1]
        exact ⟨hh, ho, hbx, hby⟩
    | some e =>
      rw [updStep_some]
      exact ⟨hh, ho, hbx, hby⟩
  exact ⟨main.1, main.2.1⟩

/-- The scan never lowers a height entry when the block height is
nonnegative. -/
theorem updFold_mono (hm : Heightmap) (poly : List Point) (size : Vec3) (minSupp : ℚ)
    (hz : 0 ≤ size.z) (l : List Cell) (i j : ℤ) :
    ∀ st : Heightmap × Option PyErr,
      st.1.height i j ≤ (l.foldl (hm.updStep size poly minSupp) st).1.height i j := by
  intro st
  refine foldl_preserves_mem
    (fun st' : Heightmap × Option PyErr => st.1.height i j ≤ st'.1.height i j)
    (hm.updStep size poly minSupp) l st ?_ (le_refl _)
  intro b' a ha hb'
  rcases b' with ⟨h, e⟩
  cases e with
  | none =>
    rw [updStep_none]
    by_cases h1 : hm.updCond poly minSupp a.1 a.2 = true
    · rw [if_pos h1]
      by_cases h2 : (npOk a.1 hm.gridX && npOk a.2 hm.gridY) = true
      · rw [if_pos h2]
        refine le_trans hb' ?_
        show h.height i j ≤ (h.write a.1 a.2 size.z (hm.cellSupp poly a.1 a.2)).height i j
        rw [write_height]
        split
        · linarith
        · exact le_refl _
      · rw [if_neg h2]
        exact hb'
    · rw [if_neg h1]
      exact hb'
  | some e =>
    rw [updStep_some]
    exact hb'

/-- The effect of the scan on a range cell when the whole range lies in
canonical index bounds. -/
theorem updFold_write (hm : Heightmap) (poly : List Point) (size : Vec3) (minSupp : ℚ) :
    ∀ (l : List Cell) (h0 : Heightmap) (x y : ℤ),
      h0.gridX = hm.gridX → h0.gridY = hm.gridY →
      (∀ cl ∈ l, 0 ≤ cl.1 ∧ cl.1 < hm.gridX ∧ 0 ≤ cl.2 ∧ cl.2 < hm.gridY) →
      l.Nodup → (x, y) ∈ l →
      (l.foldl (hm.updStep size poly minSupp) (h0, none)).1.height x y =
        h0.height x y + (if hm.updCond poly minSupp x y = true then size.z else 0) ∧
      (l.foldl (hm.updStep size poly minSupp) (h0, none)).1.occupancy x y =
        (if hm.updCond poly minSupp x y = true then hm.cellSupp poly x y
         else h0.occupancy x y) := by
  intro l
  induction l with
  | nil =>
    intro h0 x y _ _ _ _ hmem
    cases hmem
  | cons a t ih =>
    intro h0 x y hgx hgy hin hnd hmem
    rw [List.foldl_cons]
    rcases List.mem_cons.mp hmem with heq | hmem'
    · subst heq
      obtain ⟨hx0, hxg, hy0, hyg⟩ := hin (x, y) (List.mem_cons_self _ _)
      dsimp only at hx0 hxg hy0 hyg
      have hwx : wrapIdx x hm.gridX = x := by
        unfold wrapIdx
        rw [if_neg (by omega)]
      have hwy : wrapIdx y hm.gridY = y := by
        unfold wrapIdx
        rw [if_neg (by omega)]
      have hnp : (npOk x hm.gridX && npOk y hm.gridY) = true := by
        unfold npOk
        simp only [Bool.and_eq_true, decide_eq_true_eq]
        omega
      have hnwt : ∀ cl ∈ t, hm.updCond poly minSupp cl.1 cl.2 = true →
          ¬(wrapIdx cl.1 hm.gridX = x ∧ wrapIdx cl.2 hm.gridY = y) := by
        intro cl hcl hcond hcon
        obtain ⟨c1, c2, c3, c4⟩ := hin cl (List.mem_cons_of_mem _ hcl)
        have hw1 : wrapIdx cl.1 hm.gridX = cl.1 := by
          unfold wrapIdx
          rw [if_neg (by omega)]
        have hw2 : wrapIdx cl.2 hm.gridY = cl.2 := by
          unfold wrapIdx
          rw [if_neg (by omega)]
        rw [hw1, hw2] at hcon
        have hcleq : cl = (x, y) := Prod.ext hcon.1 hcon.2
        exact (List.nodup_cons.mp hnd).1 (hcleq ▸ hcl)
      rw [updStep_none]
      dsimp only
      by_cases h1 : hm.updCond poly minSupp x y = true
      · rw [if_pos h1, if_pos hnp]
        have hfr := updFold_frame hm poly size minSupp t x y hnwt
          (h0.write x y size.z (hm.cellSupp poly x y), none)
          (by show (h0.write x y size.z (hm.cellSupp poly x y)).gridX = hm.gridX
              rw [write_gridX]
              exact hgx)
          (by show (h0.write x y size.z (hm.cellSupp poly x y)).gridY = hm.gridY
              rw [write_gridY]
              exact hgy)
        have hwx0 : wrapIdx x h0.gridX = x := by
          rw [hgx]
          exact hwx
        have hwy0 : wrapIdx y h0.gridY = y := by
          rw [hgy]
          exact hwy
        constructor
        · rw [hfr.1]
          show (h0.write x y size.z (hm.cellSupp poly x y)).height x y = _
          rw [write_height, if_pos ⟨hwx0.symm, hwy0.symm⟩, if_pos h1]
        · rw [hfr.2]
          show (h0.write x y size.z (hm.cellSupp poly x y)).occupancy x y = _
          rw [write_occupancy, if_pos ⟨hwx0.symm, hwy0.symm⟩, if_pos h1]
      · rw [if_neg h1]
        have hfr := updFold_frame hm poly size minSupp t x y hnwt (h0, none) hgx hgy
        constructor
        · rw [hfr.1, if_neg h1, add_zero]
        · rw [hfr.2, if_neg h1]
    · have hane : a ≠ (x, y) := by
        intro he
        exact (List.nodup_cons.mp hnd).1 (he ▸ hmem')
      obtain ⟨a1, a2, a3, a4⟩ := hin a (List.mem_cons_self _ _)
      have hnpa : (npOk a.1 hm.gridX && npOk a.2 hm.gridY) = true := by
        unfold npOk
        simp only [Bool.and_eq_true, decide_eq_true_eq]
        omega
      rw [updStep_none]
      by_cases h1 : hm.updCond poly minSupp a.1 a.2 = true
      · rw [if_pos h1, if_pos hnpa]
        have hwa1 : wrapIdx a.1 h0.gridX = a.1 := by
          rw [hgx]
          unfold wrapIdx
          rw [if_neg (by omega)]
        have hwa2 : wrapIdx a.2 h0.gridY = a.2 := by
          rw [hgy]
          unfold wrapIdx
          rw [if_neg (by omega)]
        have hne : ¬(x = wrapIdx a.1 h0.gridX ∧ y = wrapIdx a.2 h0.gridY) := by
          rw [hwa1, hwa2]
          intro hcon
          exact hane (Prod.ext hcon.1.symm hcon.2.symm)
        obtain ⟨e1, e2⟩ := ih (h0.write a.1 a.2 size.z (hm.cellSupp poly a.1 a.2)) x y
          (by rw [write_gridX]; exact hgx) (by rw [write_gridY]; exact hgy)
          (fun cl hcl => hin cl (List.mem_cons_of_mem _ hcl))
          (List.Nodup.of_cons hnd) hmem'
        constructor
        · rw [e1, write_height, if_neg hne]
        · rw [e2, write_occupancy, if_neg hne]
      · rw [if_neg h1]
        exact ih h0 x y hgx hgy (fun cl hcl => hin cl (List.mem_cons_of_mem _ hcl))
          (List.Nodup.of_cons hnd) hmem'

/-- An empty cell intersection has zero support ratio. -/
theorem supp_empty_zero (hm : Heightmap) (poly : List Point) (x y : ℤ)
    (h : hm.cellInter poly x y = []) : hm.cellSupp poly x y = 0 := by
  unfold Heightmap.cellSupp
  rw [h]
  simp [polyArea, shoelace]

/-- With a positive minimum ratio, the write condition of `update_height` is
exactly the support-ratio test. -/
theorem updCond_iff_supp (hm : Heightmap) (poly : List Point) (minSupp : ℚ) (x y : ℤ)
    (hmr : 0 < minSupp) :
    (hm.updCond poly minSupp x y = true) ↔ minSupp ≤ hm.cellSupp poly x y := by
  unfold Heightmap.updCond
  constructor
  · intro h
    rw [Bool.and_eq_true, decide_eq_true_eq] at h
    exact h.2
  · intro h
    rw [Bool.and_eq_true, decide_eq_true_eq]
    refine ⟨?_, h⟩
    rw [Bool.not_eq_true']
    cases hie : (hm.cellInter poly x y).isEmpty with
    | false => rfl
    | true =>
      have hnil : hm.cellInter poly x y = [] := by
        cases hl : hm.cellInter poly x y with
        | nil => rfl
        | cons q r =>
          rw [hl] at hie
          simp at hie
      have h0 := supp_empty_zero hm poly x y hnil
      rw [h0] at h
      linarith

set_option maxRecDepth 4000000 in
/-- C3: within the scanned range of an in-bounds `update_height` call with a
positive minimum support ratio, a cell's stored height gains the block's full
height contribution and its support ratio is overwritten with the freshly
computed intersection ratio exactly when that ratio meets the minimum; in the
spec's 10×10 scenario at resolution `0.5`, a unit footprint centered on a cell
corner with `min_ratio = 0.5` updates exactly the cells whose intersection
area is at least `0.5 × 0.25`. -/
theorem update_height_cell_rule :
    (∀ (hm : Heightmap) (position size : Vec3) (c s minSupp : ℚ),
      0 < minSupp →
      (∀ cl ∈ hm.updRange (getPolygon position size c s),
        0 ≤ cl.1 ∧ cl.1 < hm.gridX ∧ 0 ≤ cl.2 ∧ cl.2 < hm.gridY) →
      ∀ x y : ℤ, (x, y) ∈ hm.updRange (getPolygon position size c s) →
        (hm.updateHeightRun position size c s minSupp).1.height x y =
          hm.height x y +
            (if minSupp ≤ hm.cellSupp (getPolygon position size c s) x y then size.z
             else 0) ∧
        (hm.updateHeightRun position size c s minSupp).1.occupancy x y =
          (if minSupp ≤ hm.cellSupp (getPolygon position size c s) x y
           then hm.cellSupp (getPolygon position size c s) x y
           else hm.occupancy x y)) ∧
    (∀ cl ∈ hmC3.updRange polyC3,
      (runC3Hm.height cl.1 cl.2 = hmC3.height cl.1 cl.2 + 1 ↔
        1 / 2 * (1 / 4) ≤ polyArea (hmC3.cellInter polyC3 cl.1 cl.2))) := by
  constructor
  · intro hm position size c s minSupp hmr hin x y hxy
    have key := updFold_write hm (getPolygon position size c s) size minSupp
      (hm.updRange (getPolygon position size c s)) hm x y rfl rfl hin
      (nodup_updRange hm (getPolygon position size c s)) hxy
    have hcond := updCond_iff_supp hm (getPolygon position size c s) minSupp x y hmr
    have e : hm.updateHeightRun position size c s minSupp =
        (hm.updRange (getPolygon position size c s)).foldl
          (hm.updStep size (getPolygon position size c s) minSupp) (hm, none) := rfl
    rw [e]
    constructor
    · rw [key.1]
      by_cases hc : minSupp ≤ hm.cellSupp (getPolygon position size c s) x y
      · rw [if_pos (hcond.mpr hc), if_pos hc]
      · rw [if_neg (fun ht => hc (hcond.mp ht)), if_neg hc]
    · rw [key.2]
      by_cases hc : minSupp ≤ hm.cellSupp (getPolygon position size c s) x y
      · rw [if_pos (hcond.mpr hc), if_pos hc]
      · rw [if_neg (fun ht => hc (hcond.mp ht)), if_neg hc]
  · with_unfolding_all decide

/-- C4 (amended): `update_height` never lowers any stored height entry when
the block height contribution is nonnegative, and a cell's entries change
only if some scanned cell passing the support threshold wraps onto it under
numpy indexing. -/
theorem update_height_monotone :
    (∀ (hm : Heightmap) (position size : Vec3) (c s minSupp : ℚ), 0 ≤ size.z →
      ∀ i j : ℤ, hm.height i j ≤
        (hm.updateHeightRun position size c s minSupp).1.height i j) ∧
    (∀ (hm : Heightmap) (position size : Vec3) (c s minSupp : ℚ) (i j : ℤ),
      (∀ cl ∈ hm.updRange (getPolygon position size c s),
        hm.updCond (getPolygon position size c s) minSupp cl.1 cl.2 = true →
        ¬(wrapIdx cl.1 hm.gridX = i ∧ wrapIdx cl.2 hm.gridY = j)) →
      (hm.updateHeightRun position size c s minSupp).1.height i j = hm.height i j ∧
      (hm.updateHeightRun position size c s minSupp).1.occupancy i j = hm.occupancy i j) := by
  constructor
  · intro hm position size c s minSupp hz i j
    have e : hm.updateHeightRun position size c s minSupp =
        (hm.updRange (getPolygon position size c s)).foldl
          (hm.updStep size (getPolygon position size c s) minSupp) (hm, none) := rfl
    rw [e]
    exact updFold_mono hm (getPolygon position size c s) size minSupp hz _ i j (hm, none)
  · intro hm position size c s minSupp i j hnw
    have e : hm.updateHeightRun position size c s minSupp =
        (hm.updRange (getPolygon position size c s)).foldl
          (hm.updStep size (getPolygon position size c s) minSupp) (hm, none) := rfl
    rw [e]
    exact updFold_frame hm (getPolygon position size c s) size minSupp _ i j hnw
      (hm, none) rfl rfl

set_option maxRecDepth 4000000 in
/-- C4 counterexample: an update whose footprint crosses the negative x world
boundary changes the height of a grid cell that does not meet the support
threshold — the writes wrap to the opposite grid edge, so it is not true that
every cell other than the threshold-passing ones keeps its height. -/
theorem update_height_changes_unsupported_cell :
    hm20.updCond (getPolygon ⟨-51 / 5, 0, 0⟩ ⟨1, 1, 1⟩ 1 0) (2 / 5) 39 19 = false ∧
    wrapRun.1.height 39 19 = 1 ∧ hm20.height 39 19 = 0 := by
  with_unfolding_all decide

/-- A min fold only shrinks from its seed. -/
theorem foldl_min_le_init (l : List ℚ) : ∀ init : ℚ, l.foldl min init ≤ init := by
  induction l with
  | nil => intro init; exact le_refl _
  | cons y t ih => intro init; exact le_trans (ih (min init y)) (min_le_left init y)

/-- A min fold is below every list entry. -/
theorem foldl_min_le_mem (l : List ℚ) (x : ℚ) :
    ∀ init : ℚ, x ∈ l → l.foldl min init ≤ x := by
  induction l with
  | nil => intro init hx; cases hx
  | cons y t ih =>
    intro init hx
    rcases List.mem_cons.mp hx with rfl | hx'
    · exact le_trans (foldl_min_le_init t (min init x)) (min_le_right init x)
    · exact ih (min init y) hx'

/-- Every entry bounds `listMinQ` from above. -/
theorem listMinQ_le_of_mem (l : List ℚ) (x : ℚ) (hx : x ∈ l) : listMinQ l ≤ x :=
  foldl_min_le_mem l x (l.headD 0) hx

/-- On a nonempty list the min is below the max. -/
theorem listMinQ_le_listMaxQ (l : List ℚ) (hne : l ≠ []) : listMinQ l ≤ listMaxQ l := by
  cases l with
  | nil => exact absurd rfl hne
  | cons a t =>
    exact le_trans (listMinQ_le_of_mem _ a (List.mem_cons_self a t))
      (le_listMaxQ_of_mem _ a (List.mem_cons_self a t))

set_option maxRecDepth 4000000 in
/-- C10: when the grid tiles the world rectangle exactly and the minimum
support ratio is positive, every grid index `update_height` accesses for a
footprint inside the closed world rectangle is within bounds and the call
does not fault; a footprint past the negative x boundary instead produces
negative grid indices that wrap and silently add height at the opposite grid
edge, and one past the positive x boundary faults with an `IndexError`
rather than skipping the out-of-grid cells. -/
theorem update_height_boundary_safety :
    (∀ (hm : Heightmap) (position size : Vec3) (c s minSupp : ℚ),
      0 < minSupp → 0 < hm.resolution →
      hm.width = hm.gridX * hm.resolution → hm.depth = hm.gridY * hm.resolution →
      (∀ p ∈ getPolygon position size c s,
        -(hm.width / 2) ≤ p.1 ∧ p.1 ≤ hm.width / 2 ∧
        -(hm.depth / 2) ≤ p.2 ∧ p.2 ≤ hm.depth / 2) →
      (∀ cl ∈ hm.updRange (getPolygon position size c s),
        hm.updCond (getPolygon position size c s) minSupp cl.1 cl.2 = true →
        0 ≤ cl.1 ∧ cl.1 < hm.gridX ∧ 0 ≤ cl.2 ∧ cl.2 < hm.gridY) ∧
      (hm.updateHeightRun position size c s minSupp).2 = none) ∧
    ((∃ cl ∈ hm20.updRange (getPolygon ⟨-51 / 5, 0, 0⟩ ⟨1, 1, 1⟩ 1 0), cl.1 < 0) ∧
      wrapRun.2 = none ∧ wrapRun.1.height 39 19 = 1 ∧ hm20.height 39 19 = 0) ∧
    overRun.2 = some PyErr.indexError := by
  refine ⟨?_, by with_unfolding_all decide, by with_unfolding_all decide⟩
  intro hm position size c s minSupp hmr hres hwidth hdepth hpoly
  have hne1 : (getPolygon position size c s).map Prod.fst ≠ [] := by
    simp [getPolygon]
  have hne2 : (getPolygon position size c s).map Prod.snd ≠ [] := by
    simp [getPolygon]
  have hb0 : -(hm.width / 2) ≤ (polygonBounds (getPolygon position size c s)).1 := by
    show -(hm.width / 2) ≤ listMinQ ((getPolygon position size c s).map Prod.fst)
    refine le_listMinQ _ _ hne1 ?_
    intro v hv
    obtain ⟨q, hq, rfl⟩ := List.mem_map.mp hv
    exact (hpoly q hq).1
  have hb2 : (polygonBounds (getPolygon position size c s)).2.2.1 ≤ hm.width / 2 := by
    show listMaxQ ((getPolygon position size c s).map Prod.fst) ≤ hm.width / 2
    refine listMaxQ_le _ _ hne1 ?_
    intro v hv
    obtain ⟨q, hq, rfl⟩ := List.mem_map.mp hv
    exact (hpoly q hq).2.1
  have hb2ge : -(hm.width / 2) ≤ (polygonBounds (getPolygon position size c s)).2.2.1 := by
    refine le_trans hb0 ?_
    show listMinQ ((getPolygon position size c s).map Prod.fst) ≤
      listMaxQ ((getPolygon position size c s).map Prod.fst)
    exact listMinQ_le_listMaxQ _ hne1
  have hb1 : -(hm.depth / 2) ≤ (polygonBounds (getPolygon position size c s)).2.1 := by
    show -(hm.depth / 2) ≤ listMinQ ((getPolygon position size c s).map Prod.snd)
    refine le_listMinQ _ _ hne2 ?_
    intro v hv
    obtain ⟨q, hq, rfl⟩ := List.mem_map.mp hv
    exact (hpoly q hq).2.2.1
  have hb3 : (polygonBounds (getPolygon position size c s)).2.2.2 ≤ hm.depth / 2 := by
    show listMaxQ ((getPolygon position size c s).map Prod.snd) ≤ hm.depth / 2
    refine listMaxQ_le _ _ hne2 ?_
    intro v hv
    obtain ⟨q, hq, rfl⟩ := List.mem_map.mp hv
    exact (hpoly q hq).2.2.2
  have hb3ge : -(hm.depth / 2) ≤ (polygonBounds (getPolygon position size c s)).2.2.2 := by
    refine le_trans hb1 ?_
    show listMinQ ((getPolygon position size c s).map Prod.snd) ≤
      listMaxQ ((getPolygon position size c s).map Prod.snd)
    exact listMinQ_le_listMaxQ _ hne2
  have elo1 : (hm.worldToGrid (polygonBounds (getPolygon position size c s)).1
      (polygonBounds (getPolygon position size c s)).2.1).1 =
      pyInt (((polygonBounds (getPolygon position size c s)).1 + hm.width / 2) /
        hm.resolution) := rfl
  have elo2 : (hm.worldToGrid (polygonBounds (getPolygon position size c s)).1
      (polygonBounds (getPolygon position size c s)).2.1).2 =
      pyInt (((polygonBounds (getPolygon position size c s)).2.1 + hm.depth / 2) /
        hm.resolution) := rfl
  have ehi1 : (hm.worldToGrid (polygonBounds (getPolygon position size c s)).2.2.1
      (polygonBounds (getPolygon position size c s)).2.2.2).1 =
      pyInt (((polygonBounds (getPolygon position size c s)).2.2.1 + hm.width / 2) /
        hm.resolution) := rfl
  have ehi2 : (hm.worldToGrid (polygonBounds (getPolygon position size c s)).2.2.1
      (polygonBounds (getPolygon position size c s)).2.2.2).2 =
      pyInt (((polygonBounds (getPolygon position size c s)).2.2.2 + hm.depth / 2) /
        hm.resolution) := rfl
  have hlo1 : 0 ≤ (hm.worldToGrid (polygonBounds (getPolygon position size c s)).1
      (polygonBounds (getPolygon position size c s)).2.1).1 := by
    rw [elo1]
    exact pyInt_nonneg (div_nonneg (by linarith) (le_of_lt hres))
  have hlo2 : 0 ≤ (hm.worldToGrid (polygonBounds (getPolygon position size c s)).1
      (polygonBounds (getPolygon position size c s)).2.1).2 := by
    rw [elo2]
    exact pyInt_nonneg (div_nonneg (by linarith) (le_of_lt hres))
  have hgiX : hm.width / hm.resolution = (hm.gridX : ℚ) := by
    rw [hwidth, mul_div_assoc, div_self (ne_of_gt hres), mul_one]
  have hgiY : hm.depth / hm.resolution = (hm.gridY : ℚ) := by
    rw [hdepth, mul_div_assoc, div_self (ne_of_gt hres), mul_one]
  have hhi1 : (hm.worldToGrid (polygonBounds (getPolygon position size c s)).2.2.1
      (polygonBounds (getPolygon position size c s)).2.2.2).1 ≤ hm.gridX := by
    rw [ehi1]
    have h1 : ((polygonBounds (getPolygon position size c s)).2.2.1 + hm.width / 2) /
        hm.resolution ≤ hm.width / hm.resolution := by
      rw [div_le_div_iff_of_pos_right hres]
      linarith
    calc pyInt (((polygonBounds (getPolygon position size c s)).2.2.1 + hm.width / 2) /
          hm.resolution)
        ≤ pyInt (hm.width / hm.resolution) :=
          pyInt_mono_nonneg (div_nonneg (by linarith) (le_of_lt hres)) h1
      _ = hm.gridX := by rw [hgiX, pyInt_intCast]
  have hhi2 : (hm.worldToGrid (polygonBounds (getPolygon position size c s)).2.2.1
      (polygonBounds (getPolygon position size c s)).2.2.2).2 ≤ hm.gridY := by
    rw [ehi2]
    have h1 : ((polygonBounds (getPolygon position size c s)).2.2.2 + hm.depth / 2) /
        hm.resolution ≤ hm.depth / hm.resolution := by
      rw [div_le_div_iff_of_pos_right hres]
      linarith
    calc pyInt (((polygonBounds (getPolygon position size c s)).2.2.2 + hm.depth / 2) /
          hm.resolution)
        ≤ pyInt (hm.depth / hm.resolution) :=
          pyInt_mono_nonneg (div_nonneg (by linarith) (le_of_lt hres)) h1
      _ = hm.gridY := by rw [hgiY, pyInt_intCast]
  have hinb : ∀ cl ∈ hm.updRange (getPolygon position size c s),
      hm.updCond (getPolygon position size c s) minSupp cl.1 cl.2 = true →
      0 ≤ cl.1 ∧ cl.1 < hm.gridX ∧ 0 ≤ cl.2 ∧ cl.2 < hm.gridY := by
    intro cl hcl hcond
    obtain ⟨⟨hc1lo, hc1hi⟩, hc2lo, hc2hi⟩ := mem_updRange.mp hcl
    have c0 : 0 ≤ cl.1 := le_trans hlo1 hc1lo
    have c1 : cl.1 ≤ hm.gridX := le_trans hc1hi hhi1
    have d0 : 0 ≤ cl.2 := le_trans hlo2 hc2lo
    have d1 : cl.2 ≤ hm.gridY := le_trans hc2hi hhi2
    have hx_ne : cl.1 ≠ hm.gridX := by
      intro hcx1
      have hxmin : (hm.gridToWorld cl.1 cl.2).1 = hm.width / 2 := by
        show (cl.1 : ℚ) * hm.resolution - hm.width / 2 = hm.width / 2
        rw [hcx1, hwidth]
        ring
      have harea : polyArea (cellClip (getPolygon position size c s)
          (hm.gridToWorld cl.1 cl.2).1 (hm.gridToWorld cl.1 cl.2).2
          (hm.gridToWorld (cl.1 + 1) (cl.2 + 1)).1
          (hm.gridToWorld (cl.1 + 1) (cl.2 + 1)).2) = 0 := by
        apply cellClip_area_zero_left
        intro q hq
        rw [hxmin]
        exact (hpoly q hq).2.1
      have e2 : hm.cellSupp (getPolygon position size c s) cl.1 cl.2 =
          polyArea (cellClip (getPolygon position size c s)
            (hm.gridToWorld cl.1 cl.2).1 (hm.gridToWorld cl.1 cl.2).2
            (hm.gridToWorld (cl.1 + 1) (cl.2 + 1)).1
            (hm.gridToWorld (cl.1 + 1) (cl.2 + 1)).2) / hm.resolution ^ 2 := rfl
      have hs := (updCond_iff_supp hm (getPolygon position size c s) minSupp cl.1 cl.2
        hmr).mp hcond
      rw [e2, harea, zero_div] at hs
      linarith
    have hy_ne : cl.2 ≠ hm.gridY := by
      intro hcy1
      have hymin : (hm.gridToWorld cl.1 cl.2).2 = hm.depth / 2 := by
        show (cl.2 : ℚ) * hm.resolution - hm.depth / 2 = hm.depth / 2
        rw [hcy1, hdepth]
        ring
      have harea : polyArea (cellClip (getPolygon position size c s)
          (hm.gridToWorld cl.1 cl.2).1 (hm.gridToWorld cl.1 cl.2).2
          (hm.gridToWorld (cl.1 + 1) (cl.2 + 1)).1
          (hm.gridToWorld (cl.1 + 1) (cl.2 + 1)).2) = 0 := by
        apply cellClip_area_zero_low
        intro q hq
        rw [hymin]
        exact (hpoly q hq).2.2.2
      have e2 : hm.cellSupp (getPolygon position size c s) cl.1 cl.2 =
          polyArea (cellClip (getPolygon position size c s)
            (hm.gridToWorld cl.1 cl.2).1 (hm.gridToWorld cl.1 cl.2).2
            (hm.gridToWorld (cl.1 + 1) (cl.2 + 1)).1
            (hm.gridToWorld (cl.1 + 1) (cl.2 + 1)).2) / hm.resolution ^ 2 := rfl
      have hs := (updCond_iff_supp hm (getPolygon position size c s) minSupp cl.1 cl.2
        hmr).mp hcond
      rw [e2, harea, zero_div] at hs
      linarith
    exact ⟨c0, lt_of_le_of_ne c1 hx_ne, d0, lt_of_le_of_ne d1 hy_ne⟩
  refine ⟨hinb, ?_⟩
  have e3 : hm.updateHeightRun position size c s minSupp =
      (hm.updRange (getPolygon position size c s)).foldl
        (hm.updStep size (getPolygon position size c s) minSupp) (hm, none) := rfl
  rw [e3]
  refine updFold_noError hm (getPolygon position size c s) size minSupp _ ?_ (hm, none) rfl
  intro cl hcl hcond
  obtain ⟨d0, d1, d2, d3⟩ := hinb cl hcl hcond
  unfold npOk
  simp only [Bool.and_eq_true, decide_eq_true_eq]
  omega

end Tower
